import Mathlib

/-!
# Verification of the yt-dl-api-go specification

A shallow embedding of the parts of the yt-dl-api-go repository that the
frozen claims are about, followed by theorems settling each claim.

Sources embedded here:
* `internal/domain` (Job entity and its state transitions),
* `internal/transport/http` (ProcessJob worker body),
* `internal/service/queue/dispatcher.go` (bounded non-blocking queue),
* `internal/middleware` / `internal/handler` (URL validation and normalization,
  together with the parts of Go's `net/url` they rely on),
* `pkg/safeclient/client.go` (SSRF IP filtering),
* `internal/service/downloader/ytdlp.go` and `internal/downloader/downloader.go`
  (error classification, stdout scanning, cleanup path confinement).

Machine integers: Go `int` values are modelled as `Int` (no operation here
can overflow 64 bits on the inputs involved).  Wall-clock times are opaque
`Nat` instants passed in by the caller, mirroring `time.Now()` call sites.
-/

namespace YtDlApi

/-! ## Job domain model (`internal/domain`, src/unnamed/part_002) -/

/-- `domain.JobStatus`: "pending" | "processing" | "done" | "error". -/
inductive JobStatus
  | pending
  | processing
  | done
  | jobError
  deriving DecidableEq, Repr

/-- `domain.Job`.  Field `error` of the Go struct is `errMsg` here.
Timestamps are opaque `Nat` instants. -/
structure Job where
  id : String
  url : String
  title : String := ""
  status : JobStatus
  fileKey : String := ""
  filePath : String := ""
  downloadURL : String := ""
  progress : Int
  errMsg : String := ""
  createdAt : Nat
  completedAt : Option Nat := none
  deriving DecidableEq, Repr

/-- `domain.NewJob`: status pending, progress 0, CreatedAt = now. -/
def newJob (id url : String) (now : Nat) : Job :=
  { id := id, url := url, status := .pending, progress := 0, createdAt := now }

/-- `Job.MarkProcessing`. -/
def Job.markProcessing (j : Job) : Job :=
  { j with status := .processing }

/-- `Job.MarkDone`: status done, DownloadURL set, progress 100, CompletedAt = now. -/
def Job.markDone (j : Job) (downloadURL : String) (now : Nat) : Job :=
  { j with status := .done, downloadURL := downloadURL, progress := 100,
           completedAt := some now }

/-- `Job.MarkError`: status error, Error set, CompletedAt = now. -/
def Job.markError (j : Job) (err : String) (now : Nat) : Job :=
  { j with status := .jobError, errMsg := err, completedAt := some now }

/-- `Job.UpdateProgress`: clamp below 0 to 0, above 100 to 100 (two sequential
`if` statements in the source), then store. -/
def Job.updateProgress (j : Job) (progress : Int) : Job :=
  let p := if progress < 0 then 0 else progress
  let p := if p > 100 then 100 else p
  { j with progress := p }

/-- One mutation of a `Job`, as offered by the `domain` package. -/
inductive JobOp
  | markProcessing
  | markDone (downloadURL : String) (now : Nat)
  | markError (err : String) (now : Nat)
  | updateProgress (p : Int)

/-- Apply one `JobOp`. -/
def applyOp (j : Job) : JobOp → Job
  | .markProcessing => j.markProcessing
  | .markDone u now => j.markDone u now
  | .markError e now => j.markError e now
  | .updateProgress p => j.updateProgress p

/-- Apply a sequence of `JobOp`s left to right. -/
def applyOps (j : Job) (ops : List JobOp) : Job :=
  ops.foldl applyOp j

/-! ## Worker body (`Handlers.ProcessJob`, src/unnamed/part_005) -/

/-- Outcome of one `Downloader.Download` call as observed by `ProcessJob`:
either a classified failure, or success carrying the parsed metadata title
(when a metadata line was seen) and the artifact path.  `events` are the
integer percentages delivered to the progress callback while the subprocess
ran; on success `ytdlp.go` additionally invokes the callback with 100 before
returning (modelled explicitly inside `processJob`). -/
inductive DownloadOutcome
  | failure (events : List Int) (msg : String)
  | success (events : List Int) (title : Option String) (filePath : String)

/-- Behaviour of the configured R2 client during one job, when present. -/
structure R2Outcome where
  uploadOk : Bool
  presignOk : Bool
  presignURL : String

/-- `Handlers.ProcessJob` (src/unnamed/part_005 lines 149-242): transition to
processing, run the download (progress callback = `Job.UpdateProgress`), on
failure mark error; on success assimilate title and path, then either upload
to R2 (marking error on upload/presign failure, done with the presigned URL
otherwise) or, with no R2 client, mark done with the local path. -/
def processJob (j : Job) (now : Nat) (o : DownloadOutcome) (r2 : Option R2Outcome) : Job :=
  let j := j.markProcessing
  match o with
  | .failure events msg =>
      let j := events.foldl (fun j p => j.updateProgress p) j
      j.markError msg now
  | .success events title filePath =>
      let j := events.foldl (fun j p => j.updateProgress p) j
      -- ytdlp.go: `progressCb(100, "complete")` on subprocess success
      let j := j.updateProgress 100
      let j := match title with
               | some t => { j with title := t }
               | none => j
      let j := { j with filePath := filePath }
      match r2 with
      | some r =>
          if r.uploadOk then
            if r.presignOk then
              let j := { j with fileKey := j.id ++ "/" ++ j.title }
              j.markDone r.presignURL now
            else j.markError "failed to generate download URL" now
          else j.markError "failed to upload file" now
      | none => j.markDone filePath now

/-! ## Dispatcher (`internal/service/queue/dispatcher.go`) -/

/-- Errors `Dispatcher.Enqueue` can return. -/
inductive EnqueueErr
  | queueFull
  | dispatcherStopped
  deriving DecidableEq, Repr

/-- The dispatcher state visible to `Enqueue`: the buffered job channel is a
FIFO list bounded by `capacity` (`cap(d.jobChan)`); `stopped` is the atomic
stop flag.  Workers are not modelled here — the claim is about enqueueing
with no worker consuming. -/
structure Dispatcher where
  queue : List Job
  capacity : Nat
  stopped : Bool

/-- `NewDispatcher`: `queueSize < 1` falls back to 10 (`numWorkers` does not
affect the queue and is dropped). -/
def newDispatcher (queueSize : Int) : Dispatcher :=
  let queueSize := if queueSize < 1 then 10 else queueSize
  { queue := [], capacity := queueSize.toNat, stopped := false }

/-- `Dispatcher.Enqueue`: returns `ErrDispatcherStopped` when stopped;
otherwise a `select` with a `default` branch sends on the buffered channel
when it has room and returns `ErrQueueFull` without blocking when it is full
(no worker is receiving, so a send succeeds exactly when the buffer has
room). -/
def enqueue (d : Dispatcher) (j : Job) : Dispatcher × Option EnqueueErr :=
  if d.stopped then (d, some .dispatcherStopped)
  else if d.queue.length < d.capacity then ({ d with queue := d.queue ++ [j] }, none)
  else (d, some .queueFull)

/-- Enqueue each job in turn, collecting per-call results. -/
def enqueueAll (d : Dispatcher) : List Job → Dispatcher × List (Option EnqueueErr)
  | [] => (d, [])
  | j :: rest =>
      let step := enqueue d j
      let tail := enqueueAll step.1 rest
      (tail.1, step.2 :: tail.2)

/-! ## A model of Go's `net/url` (the parts the validators and the
normalizer rely on)

URLs are handled as `List Char`.  Percent-encoding and decoding are modelled
as the identity: Go's `parse` stores unescaped components and `String`
re-escapes them; here both sides keep the raw characters, which is faithful
whenever the escaped and unescaped forms coincide and self-consistent
otherwise.  Go's control-character rejection is likewise not modelled. -/

/-- ASCII whitespace (the ASCII fragment of Go `unicode.IsSpace`; the
validator inputs of interest carry no exotic Unicode spaces). -/
def isSpaceChar (c : Char) : Bool :=
  c = ' ' || c = '\t' || c = '\n' || c = '\x0b' || c = '\x0c' || c = '\r'

/-- Go `strings.TrimSpace`: drop whitespace from both ends. -/
def trimChars (l : List Char) : List Char :=
  ((l.dropWhile isSpaceChar).reverse.dropWhile isSpaceChar).reverse

/-- Split a list at the first occurrence of `c`; `none` when `c` is absent.
Used for `strings.Cut` / `strings.Index` with single-character separators. -/
def splitFirst (c : Char) : List Char → Option (List Char × List Char)
  | [] => none
  | x :: xs =>
      if x = c then some ([], xs)
      else (splitFirst c xs).map (fun p => (x :: p.1, p.2))

/-- Split a list at the last occurrence of `c` (`strings.LastIndex`). -/
def splitLast (c : Char) (l : List Char) : Option (List Char × List Char) :=
  (splitFirst c l.reverse).map (fun p => (p.2.reverse, p.1.reverse))

/-- ASCII letter (Go `getScheme`'s first `case`). -/
def isAlphaChar (c : Char) : Bool :=
  ('a' ≤ c && c ≤ 'z') || ('A' ≤ c && c ≤ 'Z')

/-- ASCII digit. -/
def isDigitChar (c : Char) : Bool :=
  '0' ≤ c && c ≤ '9'

/-- Characters allowed after the first position of a scheme. -/
def isSchemeChar (c : Char) : Bool :=
  isAlphaChar c || isDigitChar c || c = '+' || c = '-' || c = '.'

/-- Go `getScheme`: returns `(scheme, rest)`; scheme is empty when the input
carries none; `none` models the "missing protocol scheme" error (a leading
`':'`).  A non-letter first character, or a non-scheme character before any
`':'`, means "no scheme". -/
def getScheme (s : List Char) : Option (List Char × List Char) :=
  match s with
  | [] => some ([], [])
  | c :: rest =>
      if c = ':' then none
      else if isAlphaChar c then
        match rest.dropWhile isSchemeChar with
        | ':' :: t => some (c :: rest.takeWhile isSchemeChar, t)
        | _ => some ([], s)
      else some ([], s)

/-- Go `validOptionalPort`: empty, or `':'` followed by digits only. -/
def validOptionalPort (p : List Char) : Bool :=
  match p with
  | [] => true
  | ':' :: digits => digits.all isDigitChar
  | _ => false

/-- Go `validUserinfo`: RFC 3986 userinfo characters. -/
def validUserinfo (s : List Char) : Bool :=
  s.all fun c =>
    isAlphaChar c || isDigitChar c ||
    c = '-' || c = '.' || c = '_' || c = ':' || c = '~' || c = '!' || c = '$' ||
    c = '&' || c = '\'' || c = '(' || c = ')' || c = '*' || c = '+' || c = ',' ||
    c = ';' || c = '=' || c = '%' || c = '@'

/-- Go `parseHost` (validation only; the returned host is the raw input):
a bracketed host needs a closing `']'` followed by a valid optional port;
otherwise everything from the last `':'` on must be a valid port. -/
def parseHost (host : List Char) : Option (List Char) :=
  if host.head? = some '[' then
    match splitLast ']' host with
    | none => none
    | some (_, after) => if validOptionalPort after then some host else none
  else
    match splitLast ':' host with
    | some (_, after) =>
        if validOptionalPort (':' :: after) then some host else none
    | none => some host

/-- Go `parseAuthority`: userinfo is everything before the last `'@'` and
must satisfy `validUserinfo`; the host is validated by `parseHost`. -/
def parseAuthority (authority : List Char) :
    Option (Option (List Char) × List Char) :=
  match splitLast '@' authority with
  | none =>
      (parseHost authority).map (fun h => (none, h))
  | some (userinfo, hostPart) =>
      match parseHost hostPart with
      | none => none
      | some h => if validUserinfo userinfo then some (some userinfo, h) else none

/-- The `net/url.URL` fields this repository reads or writes. -/
structure GoURL where
  scheme : List Char := []
  opaquePart : List Char := []
  user : Option (List Char) := none
  host : List Char := []
  path : List Char := []
  omitHost : Bool := false
  forceQuery : Bool := false
  rawQuery : List Char := []
  fragment : List Char := []
  deriving DecidableEq, Repr

/-- The query-splitting step of Go `parse`: a sole trailing `'?'` sets
`ForceQuery`; otherwise cut at the first `'?'`. -/
def cutQuery (rest : List Char) : List Char × Bool × List Char :=
  match splitFirst '?' rest with
  | none => (rest, false, [])
  | some (before, []) => (before, true, [])
  | some (before, after) => (before, false, after)

/-- Go `parse(rawURL, viaRequest=false)` without the fragment step: scheme,
query cut, opaque / first-segment-colon handling, authority, path.
`none` models a parse error. -/
def parseNoFrag (s : List Char) : Option GoURL :=
  match getScheme s with
  | none => none
  | some (schemeRaw, afterScheme) =>
      let scheme := schemeRaw.map Char.toLower
      let (rest, forceQuery, rawQuery) := cutQuery afterScheme
      if rest.head? ≠ some '/' ∧ scheme ≠ [] then
        some { scheme := scheme, opaquePart := rest,
               forceQuery := forceQuery, rawQuery := rawQuery }
      else if rest.head? ≠ some '/' ∧ scheme = [] ∧
          (rest.takeWhile (· ≠ '/')).contains ':' then
        none
      else if (scheme ≠ [] ∨ ¬ ("///".data.isPrefixOf rest)) ∧
          ("//".data.isPrefixOf rest) then
        let afterSlashes := rest.drop 2
        let authority := afterSlashes.takeWhile (· ≠ '/')
        let path := afterSlashes.dropWhile (· ≠ '/')
        match parseAuthority authority with
        | none => none
        | some (user, host) =>
            some { scheme := scheme, user := user, host := host, path := path,
                   forceQuery := forceQuery, rawQuery := rawQuery }
      else
        some { scheme := scheme, path := rest,
               omitHost := scheme ≠ [] ∧ rest.head? = some '/',
               forceQuery := forceQuery, rawQuery := rawQuery }

/-- Go `url.Parse`: cut the fragment at the first `'#'`, parse the rest,
store the fragment (kept raw here). -/
def urlParseChars (s : List Char) : Option GoURL :=
  match splitFirst '#' s with
  | none => parseNoFrag s
  | some (before, frag) =>
      (parseNoFrag before).map (fun u => { u with fragment := frag })

/-- Go `URL.Hostname()`: strip a valid `:port` suffix, then surrounding
brackets. -/
def hostnameOf (u : GoURL) : List Char :=
  let h :=
    match splitLast ':' u.host with
    | some (before, after) =>
        if validOptionalPort (':' :: after) then before else u.host
    | none => u.host
  if h.head? = some '[' ∧ h.getLast? = some ']' then (h.drop 1).dropLast else h

/-- The `?query` tail of `URL.String()`. -/
def queryPart (u : GoURL) : List Char :=
  if u.forceQuery ∨ u.rawQuery ≠ [] then '?' :: u.rawQuery else []

/-- The `#fragment` tail of `URL.String()`. -/
def fragPart (u : GoURL) : List Char :=
  if u.fragment ≠ [] then '#' :: u.fragment else []

/-- The userinfo part of the authority in `URL.String()`. -/
def userinfoPart (user : Option (List Char)) : List Char :=
  match user with
  | some ui => ui ++ ['@']
  | none => []

/-- Go `URL.String()` over the modelled fields (escaping is the identity,
see the section comment). -/
def urlString (u : GoURL) : List Char :=
  let schemePart := if u.scheme ≠ [] then u.scheme ++ [':'] else []
  if u.opaquePart ≠ [] then
    schemePart ++ u.opaquePart ++ queryPart u ++ fragPart u
  else
    let auth :=
      if u.scheme ≠ [] ∨ u.host ≠ [] ∨ u.user.isSome then
        if u.omitHost ∧ u.host = [] ∧ u.user = none then []
        else
          (if u.host ≠ [] ∨ u.path ≠ [] ∨ u.user.isSome then "//".data else [])
            ++ userinfoPart u.user ++ u.host
      else []
    let slash :=
      if u.path ≠ [] ∧ u.path.head? ≠ some '/' ∧ u.host ≠ [] then ['/'] else []
    let core := schemePart ++ auth ++ slash
    let dotSlash :=
      if core = [] ∧ slash = [] ∧ (u.path.takeWhile (· ≠ '/')).contains ':' then
        "./".data
      else []
    core ++ dotSlash ++ u.path ++ queryPart u ++ fragPart u

/-- The shape invariants `parseNoFrag` guarantees for its output (on an
input without `'#'`).  They are exactly what makes `urlString` print a
string that re-parses to the same record. -/
structure WF (u : GoURL) : Prop where
  scheme_shape : u.scheme = [] ∨
    ∃ c cs, u.scheme = c :: cs ∧ isAlphaChar c = true ∧ cs.all isSchemeChar = true
  scheme_lower : u.scheme.map Char.toLower = u.scheme
  opq_shape : u.opaquePart ≠ [] → u.scheme ≠ [] ∧ u.opaquePart.head? ≠ some '/' ∧
    u.host = [] ∧ u.user = none ∧ u.path = [] ∧ u.omitHost = false
  opq_hash : '#' ∉ u.opaquePart
  opq_query : '?' ∉ u.opaquePart
  user_valid : ∀ ui, u.user = some ui → validUserinfo ui = true
  host_hash : '#' ∉ u.host
  host_query : '?' ∉ u.host
  host_slash : '/' ∉ u.host
  host_at : '@' ∉ u.host
  host_parse : parseHost u.host = some u.host
  path_hash : '#' ∉ u.path
  path_query : '?' ∉ u.path
  path_abs : u.host ≠ [] ∨ u.user ≠ none → u.path = [] ∨ u.path.head? = some '/'
  path_abs' : u.scheme ≠ [] → u.opaquePart = [] → u.omitHost = false →
    u.path = [] ∨ u.path.head? = some '/'
  omit_shape : u.omitHost = true → u.scheme ≠ [] ∧ u.host = [] ∧ u.user = none ∧
    u.path.head? = some '/' ∧ ¬ "//".data.isPrefixOf u.path ∧ u.opaquePart = []
  schemeless : u.scheme = [] → u.host = [] → u.user = none →
    ¬ (u.path.takeWhile (· ≠ '/')).contains ':' ∧
    ("//".data.isPrefixOf u.path → "///".data.isPrefixOf u.path)
  schemeless_opq : u.scheme = [] → u.opaquePart = []
  query_hash : '#' ∉ u.rawQuery
  force : u.forceQuery = true → u.rawQuery = []

/-! ## URL validation and normalization (`internal/middleware`,
`internal/handler`) -/

/-- The middleware allowlist (`internal/middleware.allowedDomains`). -/
def allowedDomains : List String :=
  ["youtube.com", "www.youtube.com", "youtu.be", "m.youtube.com",
   "twitter.com", "www.twitter.com", "x.com", "www.x.com",
   "tiktok.com", "www.tiktok.com", "vm.tiktok.com",
   "instagram.com", "www.instagram.com",
   "facebook.com", "www.facebook.com", "fb.watch",
   "vimeo.com", "www.vimeo.com", "player.vimeo.com",
   "reddit.com", "www.reddit.com", "v.redd.it",
   "twitch.tv", "www.twitch.tv", "clips.twitch.tv",
   "dailymotion.com", "www.dailymotion.com"]

/-- Membership in the middleware allowlist. -/
def inAllowlist (host : List Char) : Bool :=
  allowedDomains.any (fun d => d.data = host)

/-- `strings.Split` with a single-character separator (empty input gives one
empty part, like Go). -/
def splitOnChar (c : Char) : List Char → List (List Char)
  | [] => [[]]
  | x :: xs =>
      let rest := splitOnChar c xs
      if x = c then [] :: rest
      else
        match rest with
        | r :: rs => (x :: r) :: rs
        | [] => [[x]]

/-- `middleware.isDomainAllowed`: direct membership, or — when the host has
more than two dot-separated labels — membership of the two-label parent. -/
def isDomainAllowed (host : List Char) : Bool :=
  inAllowlist host ||
    (let parts := splitOnChar '.' host
     match parts.reverse with
     | last :: secondLast :: _ :: _ => inAllowlist (secondLast ++ '.' :: last)
     | _ => false)

/-- `middleware.ValidateURL` error values. -/
inductive URLErr
  | emptyURL
  | invalidURL
  | httpsRequired
  | domainNotAllowed
  | userInfoPresent
  deriving DecidableEq, Repr

/-- `middleware.ValidateURL` (src/internal/downloader/downloader.go lines
175-218): trim, parse, scheme ∈ {http, https} (the production https-only
tightening is commented out in the source), no userinfo, non-empty hostname,
lowercased hostname in the allowlist.  `none` means the URL is accepted. -/
def ValidateURL (rawURL : String) : Option URLErr :=
  let trimmed := trimChars rawURL.data
  if trimmed = [] then some .emptyURL
  else
    match urlParseChars trimmed with
    | none => some .invalidURL
    | some u =>
        if ¬ (u.scheme = "https".data ∨ u.scheme = "http".data) then
          some .httpsRequired
        else if u.user.isSome then some .userInfoPresent
        else
          let host := hostnameOf u
          if host = [] then some .invalidURL
          else if ¬ isDomainAllowed (host.map Char.toLower) then
            some .domainNotAllowed
          else none

/-- `middleware.NormalizeURL`: trim; on parse failure return the trimmed
input; otherwise drop the fragment, rebuild with `String()`, and drop one
trailing `'/'` unless the parsed path is exactly `"/"`. -/
def NormalizeURL (rawURL : String) : String :=
  let trimmed := trimChars rawURL.data
  match urlParseChars trimmed with
  | none => String.mk trimmed
  | some u =>
      let cleared := { u with fragment := [] }
      let normalized := urlString cleared
      if normalized ≠ [] ∧ normalized.getLast? = some '/' ∧ u.path ≠ "/".data then
        String.mk normalized.dropLast
      else String.mk normalized

/-- The handler allowlist (`internal/handler.allowedDomains`,
src/unnamed/part_001). -/
def handlerAllowedDomains : List String :=
  ["youtube.com", "youtu.be", "www.youtube.com", "m.youtube.com",
   "tiktok.com", "www.tiktok.com", "vm.tiktok.com",
   "instagram.com", "www.instagram.com",
   "twitter.com", "x.com", "www.twitter.com",
   "facebook.com", "www.facebook.com", "fb.watch",
   "vimeo.com", "www.vimeo.com",
   "dailymotion.com", "www.dailymotion.com",
   "twitch.tv", "www.twitch.tv", "clips.twitch.tv",
   "reddit.com", "www.reddit.com", "v.redd.it",
   "pinterest.com", "www.pinterest.com", "pin.it"]

/-- `strings.TrimPrefix`. -/
def trimPrefixList (pre l : List Char) : List Char :=
  if pre.isPrefixOf l then l.drop pre.length else l

/-- The character class of the handler's command-injection regex
`[;&|$\x60\\]` (the fifth character is the backquote, U+0060). -/
def isSuspiciousChar (c : Char) : Bool :=
  c = ';' || c = '&' || c = '|' || c = '$' || c = Char.ofNat 96 || c = '\\'

/-- `Handler.validateURL` error values (src/unnamed/part_001). -/
inductive HandlerURLErr
  | required
  | invalidFormat
  | schemeNotHTTP
  | domainNotSupported
  | invalidCharacters
  deriving DecidableEq, Repr

/-- `Handler.validateURL` (src/unnamed/part_001 lines 124-163): non-empty,
parse, scheme http/https, lowercased `Host` (with `www.` stripped) equal to
or a dot-suffix of an allowlisted domain (also `www.`-stripped), and
finally the suspicious-character rejection on the raw URL. -/
def handlerValidateURL (rawURL : String) : Option HandlerURLErr :=
  if rawURL = "" then some .required
  else
    match urlParseChars rawURL.data with
    | none => some .invalidFormat
    | some p =>
        if ¬ (p.scheme = "http".data ∨ p.scheme = "https".data) then
          some .schemeNotHTTP
        else
          let host := trimPrefixList "www.".data (p.host.map Char.toLower)
          let allowed := handlerAllowedDomains.any (fun domain =>
            let d := trimPrefixList "www.".data domain.data
            host = d ∨ ('.' :: d).isSuffixOf host)
          if ¬ allowed then some .domainNotSupported
          else if rawURL.data.any isSuspiciousChar then some .invalidCharacters
          else none

/-! ## SafeDialer IP policy (`pkg/safeclient/client.go`)

An IP (`net.IP`) is a byte slice: a `List Nat` of length 4 or 16 with
entries below 256. -/

/-- A CIDR range (`net.IPNet` built from a network address and
`net.CIDRMask(bits, 8*len)`).  IPv4 ranges are stored in 4-byte form (Go's
`networkNumberAndMask` normalizes `net.IPv4(...)` to that). -/
structure IPNet where
  network : List Nat
  maskBits : Nat

/-- The bytes of `net.CIDRMask(ones, 8*numBytes)`. -/
def maskBytes (ones numBytes : Nat) : List Nat :=
  (List.range numBytes).map fun i =>
    if 8 * (i + 1) ≤ ones then 255
    else if ones ≤ 8 * i then 0
    else 256 - 2 ^ (8 - (ones - 8 * i))

/-- `net.IP.To4`: a 4-byte address itself, or the low 4 bytes of an
IPv4-mapped IPv6 address (`::ffff:a.b.c.d`); `none` otherwise. -/
def ipTo4 (ip : List Nat) : Option (List Nat) :=
  if ip.length = 4 then some ip
  else if ip.length = 16 ∧ ip.take 10 = List.replicate 10 0 ∧
      ip.get? 10 = some 255 ∧ ip.get? 11 = some 255 then
    some (ip.drop 12)
  else none

/-- `net.IPNet.Contains`: normalize the probe with `To4`, require matching
lengths, and compare all bytes under the mask. -/
def ipnetContains (n : IPNet) (ip : List Nat) : Bool :=
  let x := match ipTo4 ip with
           | some v4 => v4
           | none => ip
  if x.length ≠ n.network.length then false
  else
    let mask := maskBytes n.maskBits n.network.length
    (List.zip (List.zip x n.network) mask).all fun p =>
      Nat.land p.1.1 p.2 = Nat.land p.1.2 p.2

/-- `safeclient.forbiddenIPRanges` (IPv4). -/
def forbiddenIPRanges : List IPNet :=
  [⟨[10, 0, 0, 0], 8⟩, ⟨[172, 16, 0, 0], 12⟩, ⟨[192, 168, 0, 0], 16⟩,
   ⟨[127, 0, 0, 0], 8⟩, ⟨[169, 254, 0, 0], 16⟩, ⟨[224, 0, 0, 0], 4⟩,
   ⟨[255, 255, 255, 255], 32⟩, ⟨[100, 64, 0, 0], 10⟩, ⟨[0, 0, 0, 0], 8⟩,
   ⟨[192, 0, 2, 0], 24⟩, ⟨[198, 51, 100, 0], 24⟩, ⟨[203, 0, 113, 0], 24⟩,
   ⟨[169, 254, 169, 254], 32⟩]

/-- `safeclient.forbiddenIPv6Ranges` (byte forms of the listed prefixes). -/
def forbiddenIPv6Ranges : List IPNet :=
  [⟨List.replicate 15 0 ++ [1], 128⟩,
   ⟨List.replicate 16 0, 128⟩,
   ⟨252 :: List.replicate 15 0, 7⟩,
   ⟨254 :: 128 :: List.replicate 14 0, 10⟩,
   ⟨254 :: 192 :: List.replicate 14 0, 10⟩,
   ⟨255 :: List.replicate 15 0, 8⟩,
   ⟨32 :: 1 :: 13 :: 184 :: List.replicate 12 0, 32⟩]

/-- `safeclient.isForbiddenIP`: a nil IP is forbidden; an IPv4 or
IPv4-mapped address is normalized to 4 bytes and tested against the IPv4
ranges; anything else against the IPv6 ranges. -/
def isForbiddenIP (ip : Option (List Nat)) : Bool :=
  match ip with
  | none => true
  | some ip0 =>
      let ip1 := match ipTo4 ip0 with
                 | some v4 => v4
                 | none => ip0
      match ipTo4 ip1 with
      | some _ => forbiddenIPRanges.any (fun n => ipnetContains n ip1)
      | none => forbiddenIPv6Ranges.any (fun n => ipnetContains n ip1)

/-- The IPv4-mapped IPv6 form `::ffff:b0.b1.b2.b3` (what `net.ParseIP`
produces for a dotted quad). -/
def v4mapped (b : List Nat) : List Nat :=
  [0, 0, 0, 0, 0, 0, 0, 0, 0, 0, 255, 255] ++ b

/-! ## Error classification (`internal/service/downloader/ytdlp.go` lines
192-209 and `internal/downloader/downloader.go` lines 52-72) -/

/-- `strings.Contains` (substring containment). -/
def containsSub (s sub : List Char) : Bool :=
  sub.isPrefixOf s ||
    match s with
    | [] => false
    | _ :: rest => containsSub rest sub

/-- `strings.Contains` on `String`s. -/
def containsStr (s sub : String) : Bool :=
  containsSub s.data sub.data

/-- The value of `ctx.Err()` when the subprocess exits with failure. -/
inductive CtxErr
  | noErr
  | deadlineExceeded
  | canceled
  deriving DecidableEq, Repr

/-- The error message produced by the service driver
(`service/downloader.Downloader.Download`) when `cmd.Wait` fails: deadline,
then cancellation, then stderr substring checks ("Video unavailable",
"is not a valid URL"), else a generic message carrying the FULL stderr. -/
def classifyServiceError (ctxErr : CtxErr) (stderr : String) : String :=
  if ctxErr = .deadlineExceeded then "download timed out"
  else if ctxErr = .canceled then "download was canceled"
  else if containsStr stderr "Video unavailable" then
    "video is unavailable or private"
  else if containsStr stderr "is not a valid URL" then "invalid video URL"
  else "yt-dlp error: " ++ stderr

/-- `internal/downloader.truncate`: at most `maxLen` characters, with an
ellipsis appended when shortened. -/
def truncateGo (s : String) (maxLen : Nat) : String :=
  if s.data.length ≤ maxLen then s
  else String.mk (s.data.take maxLen ++ "...".data)

/-- The error message produced by the legacy driver
(`internal/downloader.Downloader.Download`) from the combined output:
"Video unavailable", then the duration-filter skip, then "filesize", then
the deadline check, else a generic message with the output truncated to 200
characters. -/
def classifyLegacyError (deadline : Bool) (output : String) : String :=
  if containsStr output "Video unavailable" then
    "video is unavailable or private"
  else if containsStr output "duration<" ∧ containsStr output "skipping" then
    "video exceeds maximum duration limit"
  else if containsStr output "filesize" then
    "video exceeds maximum file size limit"
  else if deadline then "download timed out"
  else "yt-dlp error: " ++ truncateGo output 200

/-! ## stdout scanner (`internal/service/downloader/ytdlp.go` lines 109-175)

The five artifact regexes and the progress regex are modelled by direct
scanners with Go-regexp (leftmost, greedy) semantics.  `(.+)` before a
trailing literal captures up to the *last* occurrence of that literal
(greedy); `(.+)` at the end of the pattern captures the rest of the line.
The double-capture `MoveFiles` pattern is modelled greedily without deeper
backtracking, which coincides with the regex on every line whose quoted
paths contain no extra `" to "`/`"` tokens. -/

/-- Regexp `\s`. -/
def isRegexSpace (c : Char) : Bool :=
  c = ' ' || c = '\t' || c = '\n' || c = '\x0c' || c = '\r' || c = '\x0b'

/-- Try `\[download\]\s+(\d+\.?\d*)%` anchored at the start of `l`,
returning the numeric capture. -/
def matchProgressAt (l : List Char) : Option (List Char) :=
  if "[download]".data.isPrefixOf l then
    let r := l.drop "[download]".data.length
    if (r.takeWhile isRegexSpace) = [] then none
    else
      let r := r.dropWhile isRegexSpace
      let digits := r.takeWhile isDigitChar
      if digits = [] then none
      else
        match r.dropWhile isDigitChar with
        | '%' :: _ => some digits
        | '.' :: r2 =>
            let frac := r2.takeWhile isDigitChar
            match r2.dropWhile isDigitChar with
            | '%' :: _ => some (digits ++ '.' :: frac)
            | _ => none
        | _ => none
  else none

/-- Leftmost match of the progress pattern in a line
(`progressRegex.FindStringSubmatch`). -/
def findProgress : List Char → Option (List Char)
  | [] => none
  | l@(_ :: rest) =>
      match matchProgressAt l with
      | some cap => some cap
      | none => findProgress rest

/-- Numeric value of `digits` (base 10). -/
def natOfDigits (l : List Char) : Nat :=
  l.foldl (fun n c => 10 * n + (c.toNat - '0'.toNat)) 0

/-- `int(strconv.ParseFloat(cap))`: float parsing followed by truncation
toward zero keeps the integer part, i.e. the digits before the dot (exact
for the percent magnitudes yt-dlp emits). -/
def percentInt (cap : List Char) : Int :=
  (natOfDigits (cap.takeWhile isDigitChar) : Int)

/-- Leftmost occurrence of `lit` followed by a non-empty remainder, which a
trailing greedy `(.+)` captures whole. -/
def findAfterLiteral (lit : List Char) : List Char → Option (List Char)
  | [] => none
  | l@(_ :: rest) =>
      if lit.isPrefixOf l ∧ l.drop lit.length ≠ [] then some (l.drop lit.length)
      else findAfterLiteral lit rest

/-- Split at the *last* occurrence of the substring `sub`
(`(before, after)`); `none` when absent. -/
def lastOccSplit (sub : List Char) : List Char → Option (List Char × List Char)
  | [] => if sub = [] then some ([], []) else none
  | l@(c :: rest) =>
      match lastOccSplit sub rest with
      | some (a, b) => some (c :: a, b)
      | none =>
          if sub.isPrefixOf l then some ([], l.drop sub.length) else none

/-- Leftmost position where `pre` matches and a non-empty greedy capture is
followed by `suf`: the capture runs to the last `suf` occurrence. -/
def findCaptureBetween (pre suf : List Char) : List Char → Option (List Char)
  | [] => none
  | l@(_ :: rest) =>
      (if pre.isPrefixOf l then
        match lastOccSplit suf (l.drop pre.length) with
        | some (cap, _) => if cap ≠ [] then some cap else none
        | none => none
      else none).orElse (fun _ => findCaptureBetween pre suf rest)

/-- The two captures of
`\[MoveFiles\] Moving file "(.+)" to "(.+)"` (greedy: source up to the last
`" to "`, destination up to the last `"`). -/
def findMoveFiles : List Char → Option (List Char × List Char)
  | [] => none
  | l@(_ :: rest) =>
      (if "[MoveFiles] Moving file \"".data.isPrefixOf l then
        let r := l.drop "[MoveFiles] Moving file \"".data.length
        match lastOccSplit "\" to \"".data r with
        | some (a, b) =>
            if a ≠ [] then
              match lastOccSplit "\"".data b with
              | some (bcap, _) => if bcap ≠ [] then some (a, bcap) else none
              | none => none
            else none
        | none => none
      else none).orElse (fun _ => findMoveFiles rest)

/-- The per-job scanner state: the parsed metadata (of abstract type `ι`,
produced by the external `json.Unmarshal`), the captured artifact path, and
the progress-callback invocations in order. -/
structure ScanState (ι : Type) where
  videoInfo : Option ι := none
  downloadedFile : List Char := []
  progressCalls : List (Int × String) := []

/-- The body of each artifact `if` block:
`downloadedFile = strings.TrimSpace(capture)` on match, no change
otherwise. -/
def applyCapture {ι : Type} (st : ScanState ι) (r : Option (List Char)) : ScanState ι :=
  match r with
  | some cap => { st with downloadedFile := trimChars cap }
  | none => st

/-- One iteration of the stdout scanner loop (ytdlp.go lines 129-174): a
line starting with `'{'` only feeds the JSON decoder and skips the rest
(`continue`); otherwise the progress pattern fires the callback, and the
five artifact patterns each overwrite `downloadedFile` on match —
`Destination`, `has already been downloaded`, `Merger`, `ffmpeg`,
`MoveFiles` (destination capture), in source order. -/
def processLine {ι : Type} (jsonParse : List Char → Option ι)
    (st : ScanState ι) (line : List Char) : ScanState ι :=
  if line.head? = some '{' then
    match jsonParse line with
    | some info => { st with videoInfo := some info }
    | none => st
  else
    let st := match findProgress line with
      | some cap =>
          { st with progressCalls := st.progressCalls ++ [(percentInt cap, "downloading")] }
      | none => st
    let st := applyCapture st (findAfterLiteral "[download] Destination: ".data line)
    let st := applyCapture st (findCaptureBetween "[download] ".data
      " has already been downloaded".data line)
    let st := applyCapture st (findCaptureBetween "[Merger] Merging formats into \"".data
      "\"".data line)
    let st := applyCapture st (findAfterLiteral "[ffmpeg] Destination: ".data line)
    let st := applyCapture st ((findMoveFiles line).map Prod.snd)
    st

/-- The whole scanner: fold over the lines of stdout. -/
def processLines {ι : Type} (jsonParse : List Char → Option ι)
    (st : ScanState ι) (lines : List (List Char)) : ScanState ι :=
  lines.foldl (processLine jsonParse) st

/-! ## Cleanup path confinement (`service/downloader.Downloader.Cleanup`,
ytdlp.go lines 309-330) -/

/-- Go `path/filepath.Clean` (Unix rules): resolve `.` and `..` segments,
collapse repeated separators, keep a leading `/`, return `"."` for an empty
result. -/
def cleanPath (path : List Char) : List Char :=
  if path = [] then ".".data
  else
    let rooted := path.head? = some '/'
    let comps := splitOnChar '/' path
    let out := comps.foldl (fun (acc : List (List Char)) c =>
      if c = [] ∨ c = ".".data then acc
      else if c = "..".data then
        match acc with
        | [] => if rooted then [] else ["..".data]
        | top :: restAcc => if top = "..".data then c :: acc else restAcc
      else c :: acc) []
    let result := (if rooted then "/".data else []) ++
      List.intercalate "/".data out.reverse
    if result = [] then ".".data else result

/-- Go `path/filepath.Abs` with the working directory as a parameter:
`Clean(path)` for an absolute path, else `Clean(Join(cwd, path))`.  (Its
only error case is `Getwd` failing, which the explicit `cwd` rules out.) -/
def absPath (cwd p : List Char) : List Char :=
  if p.head? = some '/' then cleanPath p else cleanPath (cwd ++ '/' :: p)

/-- Observable outcome of `Downloader.Cleanup`. -/
inductive CleanupResult
  | okNoop
  | errOutside
  | removeAttempt (path : String)
  deriving DecidableEq, Repr

/-- `Downloader.Cleanup`: empty path is a silent no-op; otherwise compare
absolute forms with `strings.HasPrefix` and refuse when the file escapes the
output directory; else call `os.Remove(filePath)` (recorded as
`removeAttempt`, its result being environmental). -/
def cleanup (cwd outputDir filePath : String) : CleanupResult :=
  if filePath = "" then .okNoop
  else
    let absP := absPath cwd.data filePath.data
    let absOut := absPath cwd.data outputDir.data
    if ¬ absOut.isPrefixOf absP then .errOutside
    else .removeAttempt filePath

/-! ## Theorems: claims C3 and C4 (URL validation) -/

/-- C3: whenever `middleware.ValidateURL` accepts a URL, the parsed (trimmed)
URL has scheme http or https, carries no userinfo, has a non-empty hostname,
and its lowercased hostname is in the allowlist either directly or through
its two-label parent domain. -/
theorem validate_ok_properties (rawURL : String)
    (h : ValidateURL rawURL = none) :
    ∃ u, urlParseChars (trimChars rawURL.data) = some u ∧
      (u.scheme = "http".data ∨ u.scheme = "https".data) ∧
      u.user = none ∧
      hostnameOf u ≠ [] ∧
      (inAllowlist ((hostnameOf u).map Char.toLower) = true ∨
        ∃ lastL secondLast front,
          (splitOnChar '.' ((hostnameOf u).map Char.toLower)).reverse =
            lastL :: secondLast :: front ∧
          inAllowlist (secondLast ++ '.' :: lastL) = true) := by
  simp only [ValidateURL] at h
  split at h
  · exact absurd h (by simp)
  · split at h
    · exact absurd h (by simp)
    · rename_i u hu
      refine ⟨u, hu, ?_⟩
      split at h
      · exact absurd h (by simp)
      · rename_i hscheme
        rw [not_not] at hscheme
        split at h
        · exact absurd h (by simp)
        · rename_i huser
          refine ⟨hscheme.symm, Option.not_isSome_iff_eq_none.mp huser, ?_⟩
          split at h
          · exact absurd h (by simp)
          · rename_i hhost
            refine ⟨hhost, ?_⟩
            split at h
            · exact absurd h (by simp)
            · rename_i hallow
              rw [not_not] at hallow
              simp only [isDomainAllowed, Bool.or_eq_true] at hallow
              rcases hallow with hdir | hparent
              · exact Or.inl hdir
              · right
                revert hparent
                split
                · rename_i lastL secondLast hd tl heq
                  intro hmem
                  exact ⟨lastL, secondLast, hd :: tl, heq, hmem⟩
                · intro hfalse
                  exact absurd hfalse (by simp)

/-- Witness for `validate_ok_properties` at a concrete accepted URL. -/
theorem validate_ok_properties_witness :
    ∃ u, urlParseChars (trimChars " https://music.youtube.com/x ".data) = some u ∧
      (u.scheme = "http".data ∨ u.scheme = "https".data) ∧
      u.user = none ∧
      hostnameOf u ≠ [] ∧
      (inAllowlist ((hostnameOf u).map Char.toLower) = true ∨
        ∃ lastL secondLast front,
          (splitOnChar '.' ((hostnameOf u).map Char.toLower)).reverse =
            lastL :: secondLast :: front ∧
          inAllowlist (secondLast ++ '.' :: lastL) = true) :=
  validate_ok_properties " https://music.youtube.com/x " (by decide)

/-- C4 counterexample: the URL validator used by the admission pipeline
(`middleware.ValidateURL`) performs no shell-metacharacter check: it accepts
a URL containing `'&'` (a character of the claimed rejection set, and
ubiquitous in query strings). -/
theorem middleware_accepts_metacharacter :
    ValidateURL "https://youtube.com/watch?v=a&b=c" = none ∧
    '&' ∈ "https://youtube.com/watch?v=a&b=c".data ∧
    isSuspiciousChar '&' = true := by
  refine ⟨by decide, by decide, by decide⟩

/-- C4 (amended): it is `Handler.validateURL` (the alternate wiring in
src/unnamed/part_001), not `middleware.ValidateURL`, that rejects every URL
containing a character from `{';', '&', '|', '$', '`', '\'}` — its final
check matches the regex `[;&|$\x60\\]` against the raw URL, and every
earlier branch also returns an error. -/
theorem handler_rejects_suspicious (u : String)
    (h : ∃ c ∈ u.data, isSuspiciousChar c = true) :
    handlerValidateURL u ≠ none := by
  intro hok
  have hany : u.data.any isSuspiciousChar = true := List.any_eq_true.mpr h
  simp only [handlerValidateURL, hany] at hok
  repeat' split at hok
  all_goals simp_all

/-- Witness for `handler_rejects_suspicious` at a concrete input. -/
theorem handler_rejects_suspicious_witness :
    handlerValidateURL "https://youtube.com/a;b" ≠ none :=
  handler_rejects_suspicious "https://youtube.com/a;b" ⟨';', by decide, by decide⟩

/-! ## Theorems: claim C7 (normalization idempotence) -/

/-- C7 counterexample: `NormalizeURL` is not idempotent.  Each application
removes at most one trailing slash, so a path ending in `"//"` needs two
applications to stabilize. -/
theorem normalize_not_idempotent :
    NormalizeURL "https://x.com/a//" = "https://x.com/a/" ∧
    NormalizeURL (NormalizeURL "https://x.com/a//") = "https://x.com/a" ∧
    NormalizeURL (NormalizeURL "https://x.com/a//") ≠
      NormalizeURL "https://x.com/a//" := by
  refine ⟨by decide, by decide, by decide⟩


/-! ## Theorems: claim C2 (dispatcher backpressure) -/

/-- A run of `Enqueue` calls on a non-stopped dispatcher succeeds until the
buffer is full and fails with `queueFull` afterwards. -/
lemma enqueueAll_spec (jobs : List Job) :
    ∀ (d : Dispatcher), d.stopped = false →
      (enqueueAll d jobs).2 =
        List.replicate (min jobs.length (d.capacity - d.queue.length)) none ++
        List.replicate (jobs.length - (d.capacity - d.queue.length))
          (some EnqueueErr.queueFull) := by
  induction jobs with
  | nil => intro d _; simp [enqueueAll]
  | cons j rest ih =>
      intro d hd
      by_cases hroom : d.queue.length < d.capacity
      · have hstep : enqueue d j = ({ d with queue := d.queue ++ [j] }, none) := by
          simp [enqueue, hd, hroom]
        have htail := ih { d with queue := d.queue ++ [j] } hd
        simp only [List.length_append, List.length_cons, List.length_nil] at htail
        have h1 : min (j :: rest).length (d.capacity - d.queue.length) =
            min rest.length (d.capacity - (d.queue.length + 1)) + 1 := by
          simp only [List.length_cons]; omega
        have h2 : (j :: rest).length - (d.capacity - d.queue.length) =
            rest.length - (d.capacity - (d.queue.length + 1)) := by
          simp only [List.length_cons]; omega
        simp only [enqueueAll, hstep, htail, h1, h2, List.replicate_succ, List.cons_append]
      · have hstep : enqueue d j = (d, some EnqueueErr.queueFull) := by
          simp [enqueue, hd, hroom]
        have htail := ih d hd
        have hf : d.capacity - d.queue.length = 0 := by omega
        simp only [enqueueAll, hstep, htail, hf, List.length_cons, Nat.min_zero,
          Nat.sub_zero, List.replicate_zero, List.nil_append, List.replicate_succ]

/-- C2: with queue capacity C and no worker consuming, a sequence of N > C
`Enqueue` calls has exactly the first C succeed and the remaining N − C
return the queue-full error; every call returns immediately with one of the
two results (the `select`/`default` model is a total function, so no call
blocks). -/
theorem enqueue_exactly_capacity (queueSize : Int) (jobs : List Job)
    (hC : 1 ≤ queueSize) (hN : queueSize.toNat < jobs.length) :
    (enqueueAll (newDispatcher queueSize) jobs).2 =
      List.replicate queueSize.toNat none ++
      List.replicate (jobs.length - queueSize.toNat) (some EnqueueErr.queueFull) ∧
    ((enqueueAll (newDispatcher queueSize) jobs).2.count none = queueSize.toNat ∧
     (enqueueAll (newDispatcher queueSize) jobs).2.count (some EnqueueErr.queueFull) =
       jobs.length - queueSize.toNat) := by
  have hcap : (newDispatcher queueSize).capacity = queueSize.toNat := by
    simp only [newDispatcher]
    have : ¬ queueSize < 1 := by omega
    simp [this]
  have hq : (newDispatcher queueSize).queue = [] := by
    simp [newDispatcher]
  have hstopped : (newDispatcher queueSize).stopped = false := by
    simp [newDispatcher]
  have hmain := enqueueAll_spec jobs (newDispatcher queueSize) hstopped
  rw [hcap, hq] at hmain
  simp only [List.length_nil, Nat.sub_zero] at hmain
  have hmin : min jobs.length queueSize.toNat = queueSize.toNat := by omega
  rw [hmin] at hmain
  refine ⟨hmain, ?_, ?_⟩
  · rw [hmain, List.count_append, List.count_replicate, List.count_replicate]
    simp
  · rw [hmain, List.count_append, List.count_replicate, List.count_replicate]
    simp

/-- Witness for `enqueue_exactly_capacity`: capacity 2, four enqueue attempts. -/
theorem enqueue_exactly_capacity_witness :
    (enqueueAll (newDispatcher 2)
        [newJob "a" "u" 0, newJob "b" "u" 0, newJob "c" "u" 0, newJob "d" "u" 0]).2 =
      List.replicate (Int.toNat 2) none ++
      List.replicate ([newJob "a" "u" 0, newJob "b" "u" 0, newJob "c" "u" 0,
          newJob "d" "u" 0].length - Int.toNat 2) (some EnqueueErr.queueFull) :=
  (enqueue_exactly_capacity 2
    [newJob "a" "u" 0, newJob "b" "u" 0, newJob "c" "u" 0, newJob "d" "u" 0]
    (by decide) (by decide)).1

/-! ## Claims C1 and C10 -/

/-- C1 counterexample: the claim "`progress = 100` iff `status = Done`" fails.
A job whose download succeeds (so the driver reports progress 100) but whose
R2 upload fails is transitioned to Error with progress still 100. -/
theorem progress100_not_done_counterexample :
    (processJob (newJob "j1" "https://u" 0) 1
        (.success [] none "/tmp/f.mp4") (some ⟨false, true, "x"⟩)).progress = 100 ∧
    (processJob (newJob "j1" "https://u" 0) 1
        (.success [] none "/tmp/f.mp4") (some ⟨false, true, "x"⟩)).status = .jobError := by
  decide

/-- C1 (amended): `MarkDone` always produces status Done with progress exactly
100, and every job `ProcessJob` leaves in status Done has progress 100; the
converse fails (see the counterexample): progress can reach 100 via the
progress callback while the job is still Processing, and such a job can still
be transitioned to Error. -/
theorem done_implies_progress100 :
    (∀ (j : Job) (url : String) (now : Nat),
        (j.markDone url now).progress = 100 ∧ (j.markDone url now).status = .done) ∧
    (∀ (j : Job) (now : Nat) (o : DownloadOutcome) (r2 : Option R2Outcome),
        (processJob j now o r2).status = .done → (processJob j now o r2).progress = 100) := by
  constructor
  · intro j url now
    exact ⟨rfl, rfl⟩
  · intro j now o r2
    cases o with
    | failure events msg =>
        intro h
        simp only [processJob, Job.markError] at h
        exact absurd h (by decide)
    | success events title filePath =>
        cases r2 with
        | none =>
            intro _
            simp [processJob, Job.markDone]
        | some r =>
            by_cases hu : r.uploadOk
            · by_cases hp : r.presignOk
              · intro _
                simp [processJob, hu, hp, Job.markDone]
              · intro h
                simp [processJob, hu, hp, Job.markError] at h
            · intro h
              simp [processJob, hu, Job.markError] at h

/-- Witness for `done_implies_progress100` at a concrete input. -/
theorem done_implies_progress100_witness :
    (processJob (newJob "a" "u" 0) 1 (.success [] none "/f") none).progress = 100 :=
  done_implies_progress100.2 (newJob "a" "u" 0) 1 (.success [] none "/f") none (by decide)

/-- `UpdateProgress` clamps its argument into [0, 100]. -/
lemma updateProgress_mem (j : Job) (p : Int) :
    0 ≤ (j.updateProgress p).progress ∧ (j.updateProgress p).progress ≤ 100 := by
  simp only [Job.updateProgress]
  split <;> split <;> omega

/-- Each `JobOp` preserves progress ∈ [0, 100]. -/
lemma applyOp_mem (j : Job) (hj : 0 ≤ j.progress ∧ j.progress ≤ 100) (op : JobOp) :
    0 ≤ (applyOp j op).progress ∧ (applyOp j op).progress ≤ 100 := by
  cases op with
  | markProcessing => exact hj
  | markDone u now => exact ⟨by simp [applyOp, Job.markDone], by simp [applyOp, Job.markDone]⟩
  | markError e now => exact hj
  | updateProgress p => exact updateProgress_mem j p

/-- Folding any list of `JobOp`s preserves progress ∈ [0, 100]. -/
lemma foldl_applyOp_mem (ops : List JobOp) :
    ∀ (j : Job), 0 ≤ j.progress ∧ j.progress ≤ 100 →
      0 ≤ (ops.foldl applyOp j).progress ∧ (ops.foldl applyOp j).progress ≤ 100 := by
  induction ops with
  | nil => intro j hj; exact hj
  | cons op rest ih =>
      intro j hj
      exact ih (applyOp j op) (applyOp_mem j hj op)

/-- C10: a new job starts at progress 0, `UpdateProgress` clamps to [0, 100],
`MarkDone` sets exactly 100, and no sequence of `domain.Job` operations can
move progress outside [0, 100]. -/
theorem progress_always_in_range :
    (∀ id url now, (newJob id url now).progress = 0) ∧
    (∀ (j : Job) (p : Int), 0 ≤ (j.updateProgress p).progress ∧
        (j.updateProgress p).progress ≤ 100) ∧
    (∀ (j : Job) (u : String) (now : Nat), (j.markDone u now).progress = 100) ∧
    (∀ (id url : String) (now : Nat) (ops : List JobOp),
        0 ≤ (applyOps (newJob id url now) ops).progress ∧
        (applyOps (newJob id url now) ops).progress ≤ 100) := by
  refine ⟨fun _ _ _ => rfl, updateProgress_mem, fun _ _ _ => rfl, ?_⟩
  intro id url now ops
  exact foldl_applyOp_mem ops (newJob id url now) (by simp [newJob])

/-! ## Theorems: claim C5 (SafeDialer forbidden IPs) -/

/-- C5: `isForbiddenIP` rejects 127.0.0.1, 10.1.2.3, 169.254.169.254, ::1
and fc00::1 (the dotted quads in the 16-byte mapped form `net.ParseIP`
yields), and on every IPv4-mapped IPv6 address it decides exactly by testing
the embedded IPv4 address against the IPv4 forbidden ranges. -/
theorem forbidden_ip_policy :
    (isForbiddenIP (some (v4mapped [127, 0, 0, 1])) = true ∧
     isForbiddenIP (some (v4mapped [10, 1, 2, 3])) = true ∧
     isForbiddenIP (some (v4mapped [169, 254, 169, 254])) = true ∧
     isForbiddenIP (some (List.replicate 15 0 ++ [1])) = true ∧
     isForbiddenIP (some (252 :: List.replicate 14 0 ++ [1])) = true) ∧
    ∀ b : List Nat, b.length = 4 →
      isForbiddenIP (some (v4mapped b)) =
        forbiddenIPRanges.any (fun n => ipnetContains n b) := by
  refine ⟨by decide, ?_⟩
  intro b hb
  match b, hb with
  | [b0, b1, b2, b3], _ => rfl

/-- Witness for `forbidden_ip_policy`: `::ffff:10.0.0.1` is forbidden. -/
theorem forbidden_ip_policy_witness :
    isForbiddenIP (some (v4mapped [10, 0, 0, 1])) = true :=
  (forbidden_ip_policy.2 [10, 0, 0, 1] (by decide)).trans (by decide)

/-! ## Theorems: claim C6 (error classification) -/

/-- C6 counterexample: the service driver does not classify a stderr that
merely mentions "private" (without "Video unavailable"): it falls through to
the generic error carrying the full stderr. -/
theorem classify_private_counterexample :
    containsStr "This video is private" "private" = true ∧
    classifyServiceError .noErr "This video is private" =
      "yt-dlp error: This video is private" ∧
    classifyServiceError .noErr "This video is private" ≠
      "video is unavailable or private" := by
  refine ⟨by decide, by decide, by decide⟩

/-- C6 (amended): the spec's classification table is split across the two
drivers.  The service driver (`ytdlp.go`) checks deadline, cancellation,
"Video unavailable" and "is not a valid URL", and otherwise reports the
generic error with the FULL (untruncated) stderr; it has no "private",
"filesize" or duration-skip checks.  The legacy driver
(`internal/downloader`) checks "Video unavailable", the duration-filter
skip, "filesize" and then the deadline, and otherwise reports the generic
error with the output truncated to 200 characters plus an ellipsis (total
at most 203). -/
theorem classification_by_driver :
    (∀ s, classifyServiceError .deadlineExceeded s = "download timed out") ∧
    (∀ s, classifyServiceError .canceled s = "download was canceled") ∧
    (∀ s, containsStr s "Video unavailable" = true →
      classifyServiceError .noErr s = "video is unavailable or private") ∧
    (∀ s, containsStr s "Video unavailable" = false →
      containsStr s "is not a valid URL" = true →
      classifyServiceError .noErr s = "invalid video URL") ∧
    (∀ s, containsStr s "Video unavailable" = false →
      containsStr s "is not a valid URL" = false →
      classifyServiceError .noErr s = "yt-dlp error: " ++ s) ∧
    (∀ (d : Bool) out, containsStr out "Video unavailable" = true →
      classifyLegacyError d out = "video is unavailable or private") ∧
    (∀ (d : Bool) out, containsStr out "Video unavailable" = false →
      containsStr out "duration<" = true → containsStr out "skipping" = true →
      classifyLegacyError d out = "video exceeds maximum duration limit") ∧
    (∀ (d : Bool) out, containsStr out "Video unavailable" = false →
      ¬(containsStr out "duration<" = true ∧ containsStr out "skipping" = true) →
      containsStr out "filesize" = true →
      classifyLegacyError d out = "video exceeds maximum file size limit") ∧
    (∀ out, containsStr out "Video unavailable" = false →
      ¬(containsStr out "duration<" = true ∧ containsStr out "skipping" = true) →
      containsStr out "filesize" = false →
      classifyLegacyError true out = "download timed out") ∧
    (∀ out, containsStr out "Video unavailable" = false →
      ¬(containsStr out "duration<" = true ∧ containsStr out "skipping" = true) →
      containsStr out "filesize" = false →
      classifyLegacyError false out = "yt-dlp error: " ++ truncateGo out 200) ∧
    (∀ out, (truncateGo out 200).length ≤ 203) := by
  refine ⟨fun s => rfl, fun s => rfl, ?_, ?_, ?_, ?_, ?_, ?_, ?_, ?_, ?_⟩
  · intro s h; simp [classifyServiceError, h]
  · intro s h1 h2; simp [classifyServiceError, h1, h2]
  · intro s h1 h2; simp [classifyServiceError, h1, h2]
  · intro d out h; simp [classifyLegacyError, h]
  · intro d out h1 h2 h3; simp [classifyLegacyError, h1, h2, h3]
  · intro d out h1 h2 h3; simp [classifyLegacyError, h1, h2, h3]
  · intro out h1 h2 h3; simp [classifyLegacyError, h1, h2, h3]
  · intro out h1 h2 h3; simp [classifyLegacyError, h1, h2, h3]
  · intro out
    simp only [truncateGo]
    split
    · rename_i hle
      show out.data.length ≤ 203
      omega
    · rename_i hgt
      show (out.data.take 200 ++ "...".data).length ≤ 203
      rw [List.length_append, List.length_take]
      have h3 : ("...".data).length = 3 := rfl
      omega

/-- Witness for `classification_by_driver` at concrete inputs. -/
theorem classification_by_driver_witness :
    classifyServiceError .noErr "ERROR: Video unavailable" =
      "video is unavailable or private" ∧
    classifyLegacyError false "match filter duration<1800 skipping y" =
      "video exceeds maximum duration limit" :=
  ⟨classification_by_driver.2.2.1 "ERROR: Video unavailable" (by decide),
   classification_by_driver.2.2.2.2.2.2.1 false
     "match filter duration<1800 skipping y" (by decide) (by decide) (by decide)⟩

/-! ## Theorems: claim C8 (stdout scanner) -/

/-- The artifact path after an `if` block: the trimmed capture on a match,
unchanged otherwise. -/
lemma applyCapture_downloadedFile {ι : Type} (st : ScanState ι)
    (r : Option (List Char)) :
    (applyCapture st r).downloadedFile =
      match r with
      | some cap => trimChars cap
      | none => st.downloadedFile := by
  cases r <;> rfl

/-- C8: a metadata-JSON line (leading `'{'`) only feeds the JSON decoder
and skips the progress and artifact patterns; the progress pattern truncates
the percentage to an integer (`"[download]  45.7%"` invokes the callback
with 45); among artifact patterns a later-matching *line* overwrites the
value captured from any earlier line, in either direction; the MoveFiles
pattern captures the destination path, not the source; and what a line
stores into `downloadedFile` never depends on the previously captured value
(a line either overwrites it with its own capture or leaves it intact). -/
theorem scanner_order_and_overwrite :
    (∀ (ι : Type) (jp : List Char → Option ι) (st : ScanState ι) (line : List Char),
      line.head? = some '{' →
      (processLine jp st line).downloadedFile = st.downloadedFile ∧
      (processLine jp st line).progressCalls = st.progressCalls) ∧
    ((processLine (fun _ => (none : Option Unit)) {}
        "[download]  45.7%".data).progressCalls = [(45, "downloading")]) ∧
    (String.mk (processLines (fun _ => (none : Option Unit)) {}
        ["[download] Destination: /tmp/a.f4v".data,
         "[Merger] Merging formats into \"/tmp/b.mp4\"".data]).downloadedFile =
      "/tmp/b.mp4") ∧
    (String.mk (processLines (fun _ => (none : Option Unit)) {}
        ["[Merger] Merging formats into \"/tmp/b.mp4\"".data,
         "[download] Destination: /tmp/a.f4v".data]).downloadedFile =
      "/tmp/a.f4v") ∧
    (String.mk (processLine (fun _ => (none : Option Unit)) {}
        "[MoveFiles] Moving file \"/tmp/a.webm\" to \"/tmp/b.webm\"".data).downloadedFile =
      "/tmp/b.webm") ∧
    (∀ (ι : Type) (jp : List Char → Option ι) (st₁ st₂ : ScanState ι) (line : List Char),
      (processLine jp st₁ line).downloadedFile =
        (processLine jp st₂ line).downloadedFile ∨
      ((processLine jp st₁ line).downloadedFile = st₁.downloadedFile ∧
       (processLine jp st₂ line).downloadedFile = st₂.downloadedFile)) := by
  refine ⟨?_, by decide, by decide, by decide, by decide, ?_⟩
  · intro ι jp st line h
    simp only [processLine, h, if_pos]
    cases jp line <;> exact ⟨rfl, rfl⟩
  · intro ι jp st₁ st₂ line
    by_cases hj : line.head? = some '{'
    · right
      constructor <;> { simp only [processLine, hj, if_pos]; cases jp line <;> rfl }
    · simp only [processLine, hj, if_neg, if_false, reduceIte,
        applyCapture_downloadedFile]
      cases (findMoveFiles line).map Prod.snd with
      | some c => left; rfl
      | none =>
          cases findAfterLiteral "[ffmpeg] Destination: ".data line with
          | some c => left; rfl
          | none =>
              cases findCaptureBetween "[Merger] Merging formats into \"".data
                  "\"".data line with
              | some c => left; rfl
              | none =>
                  cases findCaptureBetween "[download] ".data
                      " has already been downloaded".data line with
                  | some c => left; rfl
                  | none =>
                      cases findAfterLiteral "[download] Destination: ".data line with
                      | some c => left; rfl
                      | none =>
                          right
                          cases findProgress line <;> exact ⟨rfl, rfl⟩

/-- Witness for `scanner_order_and_overwrite` at a concrete JSON line. -/
theorem scanner_order_and_overwrite_witness :
    (processLine (fun _ => (none : Option Unit)) {}
        "\x7b\"title\":\"t\"\x7d".data).downloadedFile =
      ScanState.downloadedFile ({} : ScanState Unit) ∧
    (processLine (fun _ => (none : Option Unit)) {}
        "\x7b\"title\":\"t\"\x7d".data).progressCalls =
      ScanState.progressCalls ({} : ScanState Unit) :=
  scanner_order_and_overwrite.1 Unit (fun _ => none) {}
    "\x7b\"title\":\"t\"\x7d".data (by decide)

/-! ## Theorems: claim C9 (cleanup confinement) -/

/-- C9 counterexample: for the empty path the absolute form (the working
directory) does not lie under the output directory, yet `Cleanup` returns
nil without error — the claim's universal quantification over every path
fails at `""`. -/
theorem cleanup_empty_counterexample :
    cleanup "/srv" "/data/out" "" = .okNoop ∧
    (absPath "/srv".data "/data/out".data).isPrefixOf
      (absPath "/srv".data "".data) = false := by
  refine ⟨rfl, by decide⟩

/-- C9 (amended): for every non-empty path, `Cleanup` refuses (and deletes
nothing) when the absolute form of the path does not have the absolute form
of the output directory as a prefix, and attempts the deletion when it
does; the empty path alone is a silent no-op. -/
theorem cleanup_confinement (cwd outDir p : String) (hp : p ≠ "") :
    ((absPath cwd.data outDir.data).isPrefixOf (absPath cwd.data p.data) = false →
      cleanup cwd outDir p = .errOutside) ∧
    ((absPath cwd.data outDir.data).isPrefixOf (absPath cwd.data p.data) = true →
      cleanup cwd outDir p = .removeAttempt p) := by
  constructor <;> intro h <;> simp [cleanup, hp, h]

/-- Witness for `cleanup_confinement` at a confined concrete path. -/
theorem cleanup_confinement_witness :
    cleanup "/srv" "/data/out" "/data/out/f.mp4" =
      .removeAttempt "/data/out/f.mp4" :=
  (cleanup_confinement "/srv" "/data/out" "/data/out/f.mp4" (by decide)).2 (by decide)

/-! ## Theorems: claim C7, amended (idempotence on slash-free trimmed
normal forms)

The development below proves a print/parse round trip: `parseNoFrag`
output (on `'#'`-free input) satisfies `WF`, and `urlString` of a `WF`
record re-parses to the same record. -/

lemma splitFirst_eq_none {c : Char} {l : List Char} (h : c ∉ l) :
    splitFirst c l = none := by
  induction l with
  | nil => rfl
  | cons x xs ih =>
      simp only [splitFirst]
      rw [if_neg (by rintro rfl; exact h (List.mem_cons_self _ _)),
        ih (fun hx => h (List.mem_cons_of_mem _ hx))]
      rfl

lemma splitFirst_append {c : Char} {a b : List Char} (h : c ∉ a) :
    splitFirst c (a ++ c :: b) = some (a, b) := by
  induction a with
  | nil => simp [splitFirst]
  | cons x xs ih =>
      simp only [List.cons_append, splitFirst, List.append_eq]
      rw [if_neg (by rintro rfl; exact h (List.mem_cons_self _ _)),
        ih (fun hx => h (List.mem_cons_of_mem _ hx))]
      rfl

lemma splitFirst_sound {c : Char} {l a b : List Char}
    (h : splitFirst c l = some (a, b)) : l = a ++ c :: b ∧ c ∉ a := by
  induction l generalizing a with
  | nil => simp [splitFirst] at h
  | cons x xs ih =>
      simp only [splitFirst] at h
      by_cases hx : x = c
      · rw [if_pos hx] at h
        cases h
        simpa using hx
      · rw [if_neg hx] at h
        cases hsf : splitFirst c xs with
        | none => rw [hsf] at h; simp at h
        | some p =>
            rw [hsf] at h
            simp only [Option.map_some'] at h
            cases h
            obtain ⟨h1, h2⟩ := ih hsf
            refine ⟨by simp [h1], ?_⟩
            intro hmem
            rcases List.mem_cons.mp hmem with rfl | hmem
            · exact hx rfl
            · exact h2 hmem

lemma splitLast_eq_none {c : Char} {l : List Char} (h : c ∉ l) :
    splitLast c l = none := by
  rw [splitLast, splitFirst_eq_none (by simpa using h)]
  rfl

lemma splitLast_append {c : Char} {a b : List Char} (h : c ∉ b) :
    splitLast c (a ++ c :: b) = some (a, b) := by
  rw [splitLast]
  have : (a ++ c :: b).reverse = b.reverse ++ c :: a.reverse := by
    simp [List.reverse_append]
  rw [this, splitFirst_append (by simpa using h)]
  simp

lemma splitLast_sound {c : Char} {l a b : List Char}
    (h : splitLast c l = some (a, b)) : l = a ++ c :: b ∧ c ∉ b := by
  rw [splitLast] at h
  cases hsf : splitFirst c l.reverse with
  | none => rw [hsf] at h; simp at h
  | some p =>
      rw [hsf] at h
      simp only [Option.map_some'] at h
      cases h
      obtain ⟨h1, h2⟩ := splitFirst_sound hsf
      constructor
      · have := congrArg List.reverse h1
        simpa [List.reverse_append] using this
      · simpa using h2

lemma takeWhile_append_all {p : Char → Bool} {a : List Char} (b : List Char)
    (ha : a.all p = true) : (a ++ b).takeWhile p = a ++ b.takeWhile p := by
  induction a with
  | nil => simp
  | cons x xs ih =>
      simp only [List.all_cons, Bool.and_eq_true] at ha
      simp [List.takeWhile_cons, ha.1, ih ha.2]

lemma dropWhile_append_all {p : Char → Bool} {a : List Char} (b : List Char)
    (ha : a.all p = true) : (a ++ b).dropWhile p = b.dropWhile p := by
  induction a with
  | nil => simp
  | cons x xs ih =>
      simp only [List.all_cons, Bool.and_eq_true] at ha
      simp [List.dropWhile_cons, ha.1, ih ha.2]

lemma takeWhile_all {p : Char → Bool} (l : List Char) :
    (l.takeWhile p).all p = true := by
  induction l with
  | nil => rfl
  | cons x xs ih =>
      by_cases hx : p x
      · simp [List.takeWhile_cons, hx, ih]
      · simp [List.takeWhile_cons, hx]

lemma mem_takeWhile_mem {p : Char → Bool} {l : List Char} {x : Char}
    (h : x ∈ l.takeWhile p) : x ∈ l := by
  induction l with
  | nil => simpa using h
  | cons y ys ih =>
      rw [List.takeWhile_cons] at h
      by_cases hy : p y
      · rw [if_pos hy] at h
        rcases List.mem_cons.mp h with rfl | h
        · exact List.mem_cons_self _ _
        · exact List.mem_cons_of_mem _ (ih h)
      · rw [if_neg hy] at h
        simp at h

lemma mem_dropWhile_mem {p : Char → Bool} {l : List Char} {x : Char}
    (h : x ∈ l.dropWhile p) : x ∈ l := by
  induction l with
  | nil => simpa using h
  | cons y ys ih =>
      rw [List.dropWhile_cons] at h
      by_cases hy : p y
      · rw [if_pos hy] at h
        exact List.mem_cons_of_mem _ (ih h)
      · rw [if_neg hy] at h
        exact h

lemma takeWhile_snoc_neg {p : Char → Bool} {x : Char} (l : List Char)
    (hx : p x = false) : (l ++ [x]).takeWhile p = l.takeWhile p := by
  induction l with
  | nil => simp [List.takeWhile_cons, hx]
  | cons y ys ih =>
      by_cases hy : p y
      · simp [List.takeWhile_cons, hy, ih]
      · simp [List.takeWhile_cons, hy]

lemma char_toNat_ofNat {n : Nat} (h : n < 55296) : (Char.ofNat n).toNat = n := by
  rw [Char.ofNat, dif_pos (Or.inl h)]
  rfl

lemma char_le_iff_toNat {a b : Char} : a ≤ b ↔ a.toNat ≤ b.toNat := by
  rw [Char.le_def, UInt32.le_def, BitVec.le_def]
  rfl

lemma char_eq_iff_toNat {a b : Char} : a = b ↔ a.toNat = b.toNat := by
  constructor
  · rintro rfl; rfl
  · intro h
    exact Char.ext (UInt32.toNat.inj h)

lemma toLower_toNat (c : Char) :
    (Char.toLower c).toNat =
      if 65 ≤ c.toNat ∧ c.toNat ≤ 90 then c.toNat + 32 else c.toNat := by
  rw [Char.toLower]
  split
  · rename_i h
    rw [char_toNat_ofNat (by omega)]
  · rfl

lemma toLower_eq_self (c : Char) (h : ¬(65 ≤ c.toNat ∧ c.toNat ≤ 90)) :
    Char.toLower c = c := by
  rw [Char.toLower, if_neg (by omega)]

lemma toLower_idem (c : Char) : Char.toLower (Char.toLower c) = Char.toLower c := by
  by_cases h : 65 ≤ c.toNat ∧ c.toNat ≤ 90
  · apply toLower_eq_self
    rw [toLower_toNat, if_pos h]
    omega
  · rw [toLower_eq_self c h]
    exact toLower_eq_self c h

lemma map_toLower_idem (l : List Char) :
    (l.map Char.toLower).map Char.toLower = l.map Char.toLower := by
  rw [List.map_map]
  exact List.map_congr_left (fun c _ => toLower_idem c)

lemma isAlphaChar_iff {c : Char} :
    isAlphaChar c = true ↔
      (97 ≤ c.toNat ∧ c.toNat ≤ 122) ∨ (65 ≤ c.toNat ∧ c.toNat ≤ 90) := by
  simp only [isAlphaChar, Bool.or_eq_true, Bool.and_eq_true, decide_eq_true_eq,
    char_le_iff_toNat]
  constructor
  · rintro (⟨h1, h2⟩ | ⟨h1, h2⟩)
    · exact Or.inl ⟨h1, h2⟩
    · exact Or.inr ⟨h1, h2⟩
  · rintro (⟨h1, h2⟩ | ⟨h1, h2⟩)
    · exact Or.inl ⟨h1, h2⟩
    · exact Or.inr ⟨h1, h2⟩

lemma isDigitChar_iff {c : Char} :
    isDigitChar c = true ↔ 48 ≤ c.toNat ∧ c.toNat ≤ 57 := by
  simp only [isDigitChar, Bool.and_eq_true, decide_eq_true_eq, char_le_iff_toNat]
  have h0 : '0'.toNat = 48 := rfl
  have h9 : '9'.toNat = 57 := rfl
  rw [h0, h9]

lemma isAlphaChar_toLower {c : Char} (h : isAlphaChar c = true) :
    isAlphaChar (Char.toLower c) = true := by
  rw [isAlphaChar_iff] at h ⊢
  rw [toLower_toNat]
  split <;> omega

lemma isSchemeChar_iff {c : Char} :
    isSchemeChar c = true ↔
      (97 ≤ c.toNat ∧ c.toNat ≤ 122) ∨ (65 ≤ c.toNat ∧ c.toNat ≤ 90) ∨
      (48 ≤ c.toNat ∧ c.toNat ≤ 57) ∨
      c.toNat = 43 ∨ c.toNat = 45 ∨ c.toNat = 46 := by
  simp only [isSchemeChar, Bool.or_eq_true, isAlphaChar_iff, isDigitChar_iff,
    decide_eq_true_eq, char_eq_iff_toNat]
  have ha : '+'.toNat = 43 := rfl
  have hb : '-'.toNat = 45 := rfl
  have hc : '.'.toNat = 46 := rfl
  rw [ha, hb, hc]
  omega

lemma isSchemeChar_toLower {c : Char} (h : isSchemeChar c = true) :
    isSchemeChar (Char.toLower c) = true := by
  rw [isSchemeChar_iff] at h ⊢
  rw [toLower_toNat]
  split <;> omega

lemma validUserinfo_exclusions {ui : List Char} (h : validUserinfo ui = true) :
    '/' ∉ ui ∧ '?' ∉ ui ∧ '#' ∉ ui := by
  rw [validUserinfo, List.all_eq_true] at h
  refine ⟨fun hm => ?_, fun hm => ?_, fun hm => ?_⟩ <;>
    exact absurd (h _ hm) (by decide)

lemma getScheme_not_alpha {c : Char} {rest : List Char} (h1 : c ≠ ':')
    (h2 : isAlphaChar c = false) : getScheme (c :: rest) = some ([], c :: rest) := by
  simp [getScheme, h1, h2]

lemma getScheme_valid {c : Char} {cs t : List Char} (hc : isAlphaChar c = true)
    (hcs : cs.all isSchemeChar = true) :
    getScheme (c :: (cs ++ ':' :: t)) = some (c :: cs, t) := by
  have hcol : c ≠ ':' := by
    rintro rfl
    simp [isAlphaChar] at hc
  simp only [getScheme, if_neg hcol, if_pos hc]
  rw [dropWhile_append_all _ hcs, takeWhile_append_all _ hcs]
  have : (':' :: t).dropWhile isSchemeChar = ':' :: t := by
    rw [List.dropWhile_cons, if_neg (by simp [isSchemeChar, isAlphaChar, isDigitChar])]
  rw [this]
  have : (':' :: t).takeWhile isSchemeChar = [] := by
    rw [List.takeWhile_cons, if_neg (by simp [isSchemeChar, isAlphaChar, isDigitChar])]
  rw [this, List.append_nil]
  rfl

lemma getScheme_alpha_no_colon {c : Char} {rest : List Char}
    (hc : isAlphaChar c = true)
    (h : ∀ t, rest.dropWhile isSchemeChar ≠ ':' :: t) :
    getScheme (c :: rest) = some ([], c :: rest) := by
  have hcol : c ≠ ':' := by
    rintro rfl
    simp [isAlphaChar] at hc
  simp only [getScheme, if_neg hcol, if_pos hc]

lemma dropWhile_scheme_no_colon (path qp : List Char)
    (hpath : (path.takeWhile (· ≠ '/')).contains ':' = false)
    (hqp : qp = [] ∨ ∃ q, qp = '?' :: q) :
    ∀ t, (path ++ qp).dropWhile isSchemeChar ≠ ':' :: t := by
  induction path with
  | nil =>
      intro t
      rcases hqp with rfl | ⟨q, rfl⟩
      · simp
      · simp only [List.nil_append, List.dropWhile_cons]
        rw [if_neg (by simp [isSchemeChar, isAlphaChar, isDigitChar])]
        simp
  | cons c p' ih =>
      intro t
      by_cases hsc : isSchemeChar c = true
      · have hslash : c ≠ '/' := by
          rintro rfl
          simp [isSchemeChar, isAlphaChar, isDigitChar] at hsc
        rw [List.takeWhile_cons, if_pos (by simpa using hslash)] at hpath
        simp only [List.contains_cons, Bool.or_eq_false_iff] at hpath
        rw [List.cons_append, List.dropWhile_cons, if_pos hsc]
        exact ih hpath.2 t
      · have hcol : c ≠ ':' := by
          rintro rfl
          rw [List.takeWhile_cons, if_pos (by decide)] at hpath
          simp at hpath
        rw [List.cons_append, List.dropWhile_cons,
          if_neg (by simpa using hsc)]
        simp [hcol]

lemma cutQuery_no_query {body : List Char} (h : '?' ∉ body) :
    cutQuery body = (body, false, []) := by
  simp [cutQuery, splitFirst_eq_none h]

lemma cutQuery_force {body : List Char} (h : '?' ∉ body) :
    cutQuery (body ++ ['?']) = (body, true, []) := by
  have : body ++ ['?'] = body ++ '?' :: [] := rfl
  rw [cutQuery, this, splitFirst_append h]

lemma cutQuery_query {body q : List Char} (h : '?' ∉ body) (hq : q ≠ []) :
    cutQuery (body ++ '?' :: q) = (body, false, q) := by
  rw [cutQuery, splitFirst_append h]
  cases q with
  | nil => exact absurd rfl hq
  | cons a as => rfl

lemma splitFirst_none_sound {c : Char} {l : List Char}
    (h : splitFirst c l = none) : c ∉ l := by
  induction l with
  | nil => simp
  | cons x xs ih =>
      simp only [splitFirst] at h
      by_cases hx : x = c
      · rw [if_pos hx] at h; simp at h
      · rw [if_neg hx] at h
        intro hmem
        rcases List.mem_cons.mp hmem with rfl | hmem
        · exact hx rfl
        · cases hsf : splitFirst c xs with
          | none => exact ih hsf hmem
          | some p => rw [hsf] at h; simp at h

lemma splitLast_none_sound {c : Char} {l : List Char}
    (h : splitLast c l = none) : c ∉ l := by
  rw [splitLast] at h
  cases hsf : splitFirst c l.reverse with
  | none =>
      have := splitFirst_none_sound hsf
      simpa using this
  | some p => rw [hsf] at h; simp at h

lemma getScheme_sound {s sch t : List Char} (h : getScheme s = some (sch, t)) :
    (sch = [] ∧ t = s) ∨
    (∃ c cs, sch = c :: cs ∧ isAlphaChar c = true ∧ cs.all isSchemeChar = true ∧
      s = sch ++ ':' :: t) := by
  cases s with
  | nil =>
      simp only [getScheme] at h
      cases h
      exact Or.inl ⟨rfl, rfl⟩
  | cons c rest =>
      simp only [getScheme] at h
      by_cases hcol : c = ':'
      · rw [if_pos hcol] at h; simp at h
      · rw [if_neg hcol] at h
        by_cases halpha : isAlphaChar c
        · rw [if_pos halpha] at h
          revert h
          split
          · rename_i t' heq
            intro h
            cases h
            refine Or.inr ⟨c, rest.takeWhile isSchemeChar, rfl, halpha,
              takeWhile_all rest, ?_⟩
            have := List.takeWhile_append_dropWhile (p := isSchemeChar) (l := rest)
            simp only [List.cons_append]
            conv_lhs => rw [← this, heq]
          · intro h
            cases h
            exact Or.inl ⟨rfl, rfl⟩
        · rw [if_neg halpha] at h
          cases h
          exact Or.inl ⟨rfl, rfl⟩

lemma cutQuery_sound {r rest : List Char} {fq : Bool} {rq : List Char}
    (h : cutQuery r = (rest, fq, rq)) :
    '?' ∉ rest ∧ (fq = true → rq = []) ∧
    (∀ x, x ∈ rest → x ∈ r) ∧ (∀ x, x ∈ rq → x ∈ r) := by
  rw [cutQuery] at h
  cases hsf : splitFirst '?' r with
  | none =>
      rw [hsf] at h
      cases h
      exact ⟨splitFirst_none_sound hsf, by simp, fun x hx => hx, by simp⟩
  | some p =>
      obtain ⟨hsplit, hnot⟩ := splitFirst_sound hsf
      rw [hsf] at h
      obtain ⟨before, after⟩ := p
      cases after with
      | nil =>
          cases h
          refine ⟨hnot, fun _ => rfl, fun x hx => ?_, by simp⟩
          rw [hsplit]; exact List.mem_append_left _ hx
      | cons a as =>
          cases h
          refine ⟨hnot, by simp, fun x hx => ?_, fun x hx => ?_⟩
          · rw [hsplit]; exact List.mem_append_left _ hx
          · rw [hsplit]
            exact List.mem_append_right _ (List.mem_cons_of_mem _ hx)

lemma parseHost_eq {h h' : List Char} (hp : parseHost h = some h') : h' = h := by
  rw [parseHost] at hp
  split at hp
  · split at hp
    · simp at hp
    · split at hp
      · cases hp; rfl
      · simp at hp
  · split at hp
    · split at hp
      · cases hp; rfl
      · simp at hp
    · cases hp; rfl

lemma parseAuthority_sound {a : List Char} {user : Option (List Char)}
    {host : List Char} (h : parseAuthority a = some (user, host)) :
    parseHost host = some host ∧
    (∀ ui, user = some ui → validUserinfo ui = true) ∧
    '@' ∉ host ∧ (∀ x, x ∈ host → x ∈ a) ∧
    (user = none → host = a) := by
  rw [parseAuthority] at h
  cases hsl : splitLast '@' a with
  | none =>
      rw [hsl] at h
      cases hph : parseHost a with
      | none => rw [hph] at h; simp at h
      | some h0 =>
          rw [hph] at h
          simp only [Option.map_some'] at h
          cases h
          have he := parseHost_eq hph
          subst he
          exact ⟨hph, by simp, splitLast_none_sound hsl, fun x hx => hx, fun _ => rfl⟩
  | some p =>
      obtain ⟨ui0, hostPart⟩ := p
      obtain ⟨hsplit, hnot⟩ := splitLast_sound hsl
      rw [hsl] at h
      dsimp only at h
      cases hph : parseHost hostPart with
      | none => rw [hph] at h; simp at h
      | some h0 =>
          rw [hph] at h
          dsimp only at h
          have he := parseHost_eq hph
          subst he
          by_cases hv : validUserinfo ui0 = true
          · rw [if_pos hv] at h
            cases h
            refine ⟨hph, ?_, hnot, fun x hx => ?_, by simp⟩
            · rintro ui heq; cases heq; exact hv
            · rw [hsplit]
              exact List.mem_append_right _ (List.mem_cons_of_mem _ hx)
          · rw [if_neg hv] at h; simp at h

lemma parseAuthority_empty {a : List Char}
    (h : parseAuthority a = some (none, [])) : a = [] := by
  rw [parseAuthority] at h
  cases hsl : splitLast '@' a with
  | none =>
      rw [hsl] at h
      cases hph : parseHost a with
      | none => rw [hph] at h; simp at h
      | some h0 =>
          rw [hph] at h
          simp only [Option.map_some'] at h
          cases h
          exact (parseHost_eq hph).symm
  | some p =>
      obtain ⟨ui0, hostPart⟩ := p
      rw [hsl] at h
      dsimp only at h
      cases hph : parseHost hostPart with
      | none => rw [hph] at h; simp at h
      | some h0 =>
          rw [hph] at h
          dsimp only at h
          split at h
          · simp at h
          · simp at h

lemma dropWhile_shape (p : Char → Bool) (l : List Char) :
    l.dropWhile p = [] ∨
    ∃ x xs, l.dropWhile p = x :: xs ∧ p x = false := by
  induction l with
  | nil => exact Or.inl rfl
  | cons y ys ih =>
      rw [List.dropWhile_cons]
      by_cases hy : p y
      · rw [if_pos hy]; exact ih
      · rw [if_neg hy]
        exact Or.inr ⟨y, ys, rfl, by simpa using hy⟩

lemma all_map_of_all {p q : Char → Bool} {f : Char → Char} {l : List Char}
    (hl : l.all q = true) (hpq : ∀ x, q x = true → p (f x) = true) :
    (l.map f).all p = true := by
  rw [List.all_eq_true] at hl ⊢
  intro x hx
  obtain ⟨y, hy, rfl⟩ := List.mem_map.mp hx
  exact hpq y (hl y hy)

lemma isPrefixOf_pair {a b : Char} {l : List Char}
    (h : ([a, b]).isPrefixOf l = true) : ∃ t, l = a :: b :: t := by
  rw [List.isPrefixOf_iff_prefix] at h
  obtain ⟨t, rfl⟩ := h
  exact ⟨t, rfl⟩

lemma isPrefixOf_triple_intro {a b c : Char} (t : List Char) :
    ([a, b, c]).isPrefixOf (a :: b :: c :: t) = true := by
  rw [List.isPrefixOf_iff_prefix]
  exact ⟨t, rfl⟩

/-- Everything `parseNoFrag` returns on a `'#'`-free input is well formed. -/
lemma parseNoFrag_WF {s : List Char} {u : GoURL}
    (hs : '#' ∉ s) (h : parseNoFrag s = some u) : WF u := by
  rw [parseNoFrag] at h
  cases hgs : getScheme s with
  | none => rw [hgs] at h; simp at h
  | some p =>
      obtain ⟨schemeRaw, afterScheme⟩ := p
      rw [hgs] at h
      dsimp only at h
      have hsch := getScheme_sound hgs
      have hafter : ∀ x, x ∈ afterScheme → x ∈ s := by
        rcases hsch with ⟨_, rfl⟩ | ⟨c, cs, _, _, _, hs_eq⟩
        · exact fun x hx => hx
        · intro x hx
          rw [hs_eq]
          exact List.mem_append_right _ (List.mem_cons_of_mem _ hx)
      have hshape : schemeRaw.map Char.toLower = [] ∨
          ∃ c cs, schemeRaw.map Char.toLower = c :: cs ∧ isAlphaChar c = true ∧
            cs.all isSchemeChar = true := by
        rcases hsch with ⟨rfl, _⟩ | ⟨c, cs, rfl, hca, hcs, _⟩
        · exact Or.inl rfl
        · exact Or.inr ⟨Char.toLower c, cs.map Char.toLower, by simp,
            isAlphaChar_toLower hca,
            all_map_of_all hcs (fun x hx => isSchemeChar_toLower hx)⟩
      have hlower := map_toLower_idem schemeRaw
      rcases hcq : cutQuery afterScheme with ⟨rest, fq, rq⟩
      rw [hcq] at h
      dsimp only at h
      obtain ⟨hqrest, hforce, hmemrest, hmemrq⟩ := cutQuery_sound hcq
      have hhrest : '#' ∉ rest := fun hm => hs (hafter _ (hmemrest _ hm))
      have hhrq : '#' ∉ rq := fun hm => hs (hafter _ (hmemrq _ hm))
      by_cases hb1 : rest.head? ≠ some '/' ∧ schemeRaw.map Char.toLower ≠ []
      · rw [if_pos hb1] at h
        obtain rfl := Option.some.inj h
        refine ⟨hshape, hlower, fun _ => ⟨hb1.2, hb1.1, rfl, rfl, rfl, rfl⟩,
          hhrest, hqrest, by simp, by simp, by simp, by simp, by simp, rfl,
          by simp, by simp, ?_, ?_, ?_, ?_, fun h0 => absurd h0 hb1.2, hhrq,
          hforce⟩
        · rintro (h0 | h0) <;> simp at h0
        · intro _ _ _
          exact Or.inl rfl
        · intro h0
          simp at h0
        · intro h0
          exact absurd h0 hb1.2
      · rw [if_neg hb1] at h
        by_cases hb2 : rest.head? ≠ some '/' ∧ schemeRaw.map Char.toLower = [] ∧
            (rest.takeWhile (· ≠ '/')).contains ':'
        · rw [if_pos hb2] at h; simp at h
        · rw [if_neg hb2] at h
          by_cases hb3 : (schemeRaw.map Char.toLower ≠ [] ∨
              ¬ ("///".data.isPrefixOf rest)) ∧ ("//".data.isPrefixOf rest)
          · rw [if_pos hb3] at h
            obtain ⟨t2, hrest2⟩ := isPrefixOf_pair hb3.2
            cases hpa : parseAuthority ((rest.drop 2).takeWhile (· ≠ '/')) with
            | none => rw [hpa] at h; simp at h
            | some q =>
                obtain ⟨user, host⟩ := q
                rw [hpa] at h
                dsimp only at h
                obtain rfl := Option.some.inj h
                obtain ⟨hhp, huv, hhat, hhmem, hunone⟩ := parseAuthority_sound hpa
                have hhostmem : ∀ x, x ∈ host → x ∈ rest := by
                  intro x hx
                  exact List.mem_of_mem_drop (mem_takeWhile_mem (hhmem _ hx))
                have hpathmem : ∀ x,
                    x ∈ (rest.drop 2).dropWhile (· ≠ '/') → x ∈ rest := by
                  intro x hx
                  exact List.mem_of_mem_drop (mem_dropWhile_mem hx)
                have hpathshape :
                    (rest.drop 2).dropWhile (· ≠ '/') = [] ∨
                    ((rest.drop 2).dropWhile (· ≠ '/')).head? = some '/' := by
                  rcases dropWhile_shape (fun x => decide (x ≠ '/')) (rest.drop 2)
                    with h0 | ⟨x, xs, h0, hx⟩
                  · exact Or.inl h0
                  · right
                    rw [h0]
                    simp only [decide_eq_false_iff_not, not_not] at hx
                    rw [hx]
                    rfl
                refine ⟨hshape, hlower, by simp, by simp, by simp, ?_,
                  fun hm => hhrest (hhostmem _ hm),
                  fun hm => hqrest (hhostmem _ hm), ?_, hhat, hhp,
                  fun hm => hhrest (hpathmem _ hm),
                  fun hm => hqrest (hpathmem _ hm),
                  fun _ => hpathshape, fun _ _ _ => hpathshape, ?_, ?_,
                  fun _ => rfl, hhrq, hforce⟩
                · rintro ui heq
                  exact huv ui heq
                · intro hm
                  have := takeWhile_all (p := fun x => decide (x ≠ '/')) (rest.drop 2)
                  rw [List.all_eq_true] at this
                  have := this _ (hhmem _ hm)
                  simp at this
                · intro h0; simp at h0
                · intro hsch0 hhost0 huser0
                  dsimp only at hsch0 hhost0 huser0 ⊢
                  subst hhost0
                  subst huser0
                  have hauth := parseAuthority_empty hpa
                  have hdrop : rest.drop 2 = [] := by
                    cases hd : rest.drop 2 with
                    | nil => rfl
                    | cons a as =>
                        rw [hd, List.takeWhile_cons] at hauth
                        by_cases ha : a = '/'
                        · exfalso
                          rcases hb3.1 with h0 | h0
                          · exact h0 hsch0
                          · apply h0
                            have ht2 : t2 = a :: as := by
                              rw [hrest2] at hd
                              simpa using hd
                            rw [hrest2, ht2, ha]
                            exact isPrefixOf_triple_intro as
                        · rw [if_pos (by simpa using ha)] at hauth
                          simp at hauth
                  rw [hdrop]
                  constructor
                  · simp
                  · intro hpre
                    simp at hpre
          · rw [if_neg hb3] at h
            obtain rfl := Option.some.inj h
            push_neg at hb1 hb2
            refine ⟨hshape, hlower, by simp, by simp, by simp, by simp,
              by simp, by simp, by simp, by simp, rfl, hhrest, hqrest,
              ?_, ?_, ?_, ?_, fun _ => rfl, hhrq, hforce⟩
            · rintro (h0 | h0) <;> simp at h0
            · intro hsne _ _
              dsimp only at hsne ⊢
              have hhead : rest.head? = some '/' := by
                by_contra hne
                exact hsne (hb1 hne)
              exact Or.inr hhead
            · intro homit
              dsimp only at homit ⊢
              rw [decide_eq_true_eq] at homit
              obtain ⟨hsne, hhead⟩ := homit
              refine ⟨hsne, rfl, rfl, hhead, ?_, rfl⟩
              intro hpre
              rw [not_and_or] at hb3
              rcases hb3 with h0 | h0
              · exact h0 (Or.inl hsne)
              · exact h0 hpre
            · intro hsch0 _ _
              dsimp only at hsch0 ⊢
              constructor
              · by_cases hhead : rest.head? = some '/'
                · cases rest with
                  | nil => simp at hhead
                  | cons a as =>
                      simp only [List.head?_cons, Option.some.injEq] at hhead
                      rw [hhead, List.takeWhile_cons]
                      rw [if_neg (by simp)]
                      simp
                · have := hb2 hhead hsch0
                  simpa using this
              · intro hpre
                rw [not_and_or] at hb3
                rcases hb3 with h0 | h0
                · push_neg at h0
                  exact h0.2
                · exact absurd hpre h0

lemma not_mem_append {x : Char} {a b : List Char} (ha : x ∉ a) (hb : x ∉ b) :
    x ∉ a ++ b :=
  fun h => (List.mem_append.mp h).elim ha hb

lemma scheme_shape_not_mem {sch : List Char}
    (hshape : sch = [] ∨ ∃ c cs, sch = c :: cs ∧ isAlphaChar c = true ∧
      cs.all isSchemeChar = true)
    {x : Char} (hx1 : isAlphaChar x = false) (hx2 : isSchemeChar x = false) :
    x ∉ sch := by
  rcases hshape with rfl | ⟨c, cs, rfl, hca, hcs⟩
  · simp
  · intro hmem
    rcases List.mem_cons.mp hmem with rfl | hmem
    · rw [hca] at hx1; cases hx1
    · rw [List.all_eq_true] at hcs
      have := hcs _ hmem
      rw [this] at hx2
      cases hx2

lemma getScheme_schemeless_body (path qp : List Char)
    (hcolon : (path.takeWhile (· ≠ '/')).contains ':' = false)
    (hqp : qp = [] ∨ ∃ q, qp = '?' :: q) :
    getScheme (path ++ qp) = some ([], path ++ qp) := by
  cases hpq : path ++ qp with
  | nil => rfl
  | cons c r =>
      by_cases hca : isAlphaChar c = true
      · apply getScheme_alpha_no_colon hca
        intro t ht
        have hfull := dropWhile_scheme_no_colon path qp hcolon hqp t
        rw [hpq, List.dropWhile_cons, if_pos (by simp [isSchemeChar, hca])] at hfull
        exact hfull ht
      · by_cases hcc : c = ':'
        · exfalso
          subst hcc
          cases path with
          | nil =>
              rcases hqp with rfl | ⟨q, rfl⟩
              · simp at hpq
              · simp at hpq
          | cons p ps =>
              have hp : p = ':' := by
                have := hpq
                simp only [List.cons_append, List.cons.injEq] at this
                exact this.1
              rw [hp, List.takeWhile_cons, if_pos (by decide)] at hcolon
              simp at hcolon
        · exact getScheme_not_alpha hcc (by simpa using hca)

lemma not_mem_cons_of {x c : Char} {l : List Char} (hxc : x ≠ c) (hl : x ∉ l) :
    x ∉ c :: l := by
  intro h
  rcases List.mem_cons.mp h with rfl | h
  · exact hxc rfl
  · exact hl h

lemma cutQuery_body (body : List Char) (fq : Bool) (rq : List Char)
    (hnq : '?' ∉ body) (hforce : fq = true → rq = []) :
    cutQuery (body ++ (if fq = true ∨ rq ≠ [] then '?' :: rq else [])) =
      (body, fq, rq) := by
  cases fq with
  | false =>
      by_cases hr : rq = []
      · subst hr
        rw [if_neg (by simp), List.append_nil]
        exact cutQuery_no_query hnq
      · rw [if_pos (Or.inr hr)]
        exact cutQuery_query hnq hr
  | true =>
      have := hforce rfl
      subst this
      rw [if_pos (Or.inl rfl)]
      exact cutQuery_force hnq

lemma parseAuthority_print (usr : Option (List Char)) (hst : List Char)
    (huser : ∀ ui, usr = some ui → validUserinfo ui = true)
    (hha : '@' ∉ hst) (hhp : parseHost hst = some hst) :
    parseAuthority (userinfoPart usr ++ hst) = some (usr, hst) := by
  cases usr with
  | none =>
      rw [userinfoPart, List.nil_append, parseAuthority, splitLast_eq_none hha,
        hhp]
      rfl
  | some ui =>
      have hform : userinfoPart (some ui) ++ hst = ui ++ '@' :: hst := by
        simp [userinfoPart]
      rw [hform, parseAuthority, splitLast_append hha]
      dsimp only
      rw [hhp]
      dsimp only
      rw [if_pos (huser ui rfl)]

lemma not_prefix_three {z : Char} (hz : z ≠ '/') (w : List Char) :
    ("///".data).isPrefixOf ('/' :: '/' :: z :: w) = false := by
  rw [Bool.eq_false_iff]
  intro h
  have : ("///".data) = ['/', '/', '/'] := rfl
  rw [this, List.isPrefixOf_iff_prefix] at h
  obtain ⟨t, ht⟩ := h
  simp only [List.cons_append, List.cons.injEq] at ht
  exact hz ht.2.2.1.symm

lemma urlString_authority (sch : List Char) (usr : Option (List Char))
    (hst pth : List Char) (fq : Bool) (rq : List Char)
    (hg1 : sch ≠ [] ∨ hst ≠ [] ∨ usr.isSome = true)
    (hw : hst ≠ [] ∨ pth ≠ [] ∨ usr.isSome = true)
    (hpshape : pth = [] ∨ pth.head? = some '/') :
    urlString ⟨sch, [], usr, hst, pth, false, fq, rq, []⟩ =
      (if sch ≠ [] then sch ++ [':'] else []) ++
        ('/' :: '/' :: (userinfoPart usr ++ hst ++ pth ++
          (if fq = true ∨ rq ≠ [] then '?' :: rq else []))) := by
  have hqp : queryPart ⟨sch, [], usr, hst, pth, false, fq, rq, []⟩ =
      (if fq = true ∨ rq ≠ [] then '?' :: rq else []) := rfl
  have hfp : fragPart ⟨sch, [], usr, hst, pth, false, fq, rq, []⟩ = [] := rfl
  simp only [urlString, hqp, hfp]
  split_ifs <;> simp_all [List.append_assoc]

lemma split_noSlash_append {A pth : List Char}
    (hA : A.all (fun x => decide (x ≠ '/')) = true)
    (hp : pth = [] ∨ pth.head? = some '/') :
    (A ++ pth).takeWhile (fun x => decide (x ≠ '/')) = A ∧
    (A ++ pth).dropWhile (fun x => decide (x ≠ '/')) = pth := by
  rcases hp with rfl | hp
  · rw [takeWhile_append_all _ hA, dropWhile_append_all _ hA]
    simp
  · cases pth with
    | nil => simp at hp
    | cons p ps =>
        simp only [List.head?_cons, Option.some.injEq] at hp
        subst hp
        rw [takeWhile_append_all _ hA, dropWhile_append_all _ hA,
          List.takeWhile_cons, List.dropWhile_cons]
        rw [if_neg (by simp), if_neg (by simp)]
        simp

set_option maxHeartbeats 1600000 in
/-- Print/parse round trip: `urlString` of a well-formed fragment-free
record re-parses to the same record. -/
lemma urlParse_urlString (u : GoURL) (hW : WF u) (hfrag : u.fragment = []) :
    urlParseChars (urlString u) = some u := by
  obtain ⟨sch, opq, usr, hst, pth, omh, fq, rq, frg⟩ := u
  obtain ⟨hshape, hlower, hopq, hopqh, hopqq, huser, hhh, hhq, hhs, hha, hhp,
    hph, hpq, habs, habs', homit, hles, hlesopq, hqh, hforce⟩ := hW
  dsimp only at *
  subst hfrag
  -- the query tail and its character facts
  have hqp : queryPart ⟨sch, opq, usr, hst, pth, omh, fq, rq, []⟩ =
      (if fq = true ∨ rq ≠ [] then '?' :: rq else []) := rfl
  have hfp : fragPart ⟨sch, opq, usr, hst, pth, omh, fq, rq, []⟩ = [] := rfl
  have hqphash : '#' ∉ (if fq = true ∨ rq ≠ [] then '?' :: rq else []) := by
    split
    · exact not_mem_cons_of (by decide) hqh
    · simp
  have hqpshape : (if fq = true ∨ rq ≠ [] then '?' :: rq else []) = [] ∨
      ∃ q, (if fq = true ∨ rq ≠ [] then '?' :: rq else []) = '?' :: q := by
    split
    · exact Or.inr ⟨rq, rfl⟩
    · exact Or.inl rfl
  have hschh : '#' ∉ sch := scheme_shape_not_mem hshape (by decide) (by decide)
  have hschq : '?' ∉ sch := scheme_shape_not_mem hshape (by decide) (by decide)
  by_cases hopqe : opq = []
  case neg =>
    -- class A: opaque form `scheme:opaque?query`
    obtain ⟨hsne, hophead, hhst, husr, hpth, homh⟩ := hopq hopqe
    subst hhst; subst husr; subst hpth; subst homh
    obtain ⟨c, cs, rfl, hc, hcs⟩ : ∃ c cs, sch = c :: cs ∧ isAlphaChar c = true ∧
        cs.all isSchemeChar = true := by
      rcases hshape with rfl | ⟨c, cs, rfl, hc, hcs⟩
      · exact absurd rfl hsne
      · exact ⟨c, cs, rfl, hc, hcs⟩
    have hstr : urlString ⟨c :: cs, opq, none, [], [], false, fq, rq, []⟩ =
        c :: (cs ++ ':' :: (opq ++ (if fq = true ∨ rq ≠ [] then '?' :: rq else []))) := by
      simp only [urlString, hqp, hfp]
      rw [if_pos hsne, if_pos hopqe]
      simp [List.append_assoc]
    rw [urlParseChars, hstr]
    have hhash : '#' ∉ c :: (cs ++ ':' ::
        (opq ++ (if fq = true ∨ rq ≠ [] then '?' :: rq else []))) := by
      apply not_mem_cons_of
        (fun he => hschh (by rw [he]; exact List.mem_cons_self c cs))
      apply not_mem_append (fun hx => hschh (List.mem_cons_of_mem _ hx))
      apply not_mem_cons_of (by decide)
      exact not_mem_append hopqh hqphash
    rw [splitFirst_eq_none hhash, parseNoFrag, getScheme_valid hc hcs]
    dsimp only
    rw [hlower, cutQuery_body opq fq rq hopqq hforce]
    dsimp only
    have hcond : opq.head? ≠ some '/' ∧ c :: cs ≠ [] := ⟨hophead, by simp⟩
    rw [if_pos hcond]
  case pos =>
    subst hopqe
    by_cases homite : omh = true
    case pos =>
      -- class B: `scheme:/path` with the host omitted
      obtain ⟨hsne, hhst, husr, hphead, hnopre, -⟩ := homit homite
      subst hhst; subst husr; subst homite
      obtain ⟨c, cs, rfl, hc, hcs⟩ : ∃ c cs, sch = c :: cs ∧
          isAlphaChar c = true ∧ cs.all isSchemeChar = true := by
        rcases hshape with rfl | ⟨c, cs, rfl, hc, hcs⟩
        · exact absurd rfl hsne
        · exact ⟨c, cs, rfl, hc, hcs⟩
      have hstr : urlString ⟨c :: cs, [], none, [], pth, true, fq, rq, []⟩ =
          c :: (cs ++ ':' ::
            (pth ++ (if fq = true ∨ rq ≠ [] then '?' :: rq else []))) := by
        simp only [urlString, hqp, hfp, userinfoPart]
        split_ifs <;> simp_all [List.append_assoc]
      rw [urlParseChars, hstr]
      have hhash : '#' ∉ c :: (cs ++ ':' ::
          (pth ++ (if fq = true ∨ rq ≠ [] then '?' :: rq else []))) := by
        apply not_mem_cons_of
          (fun he => hschh (by rw [he]; exact List.mem_cons_self c cs))
        apply not_mem_append (fun hx => hschh (List.mem_cons_of_mem _ hx))
        apply not_mem_cons_of (by decide)
        exact not_mem_append hph hqphash
      rw [splitFirst_eq_none hhash, parseNoFrag, getScheme_valid hc hcs]
      dsimp only
      rw [hlower, cutQuery_body pth fq rq hpq hforce]
      dsimp only
      rw [if_neg (by rintro ⟨h0, -⟩; exact h0 hphead)]
      rw [if_neg (by rintro ⟨h0, -⟩; exact h0 hphead)]
      rw [if_neg (by
        rintro ⟨-, h0⟩
        obtain ⟨t, ht⟩ := isPrefixOf_pair h0
        apply hnopre
        rw [ht]
        rw [List.isPrefixOf_iff_prefix]
        exact ⟨t, rfl⟩)]
      have homv : decide (c :: cs ≠ [] ∧ pth.head? = some '/') = true := by
        rw [decide_eq_true_eq]
        exact ⟨by simp, hphead⟩
      rw [homv]
    case neg =>
      have homh0 : omh = false := by
        cases omh
        · rfl
        · exact absurd rfl homite
      subst homh0
      by_cases hg1 : sch ≠ [] ∨ hst ≠ [] ∨ usr.isSome
      case pos =>
        by_cases hw : hst ≠ [] ∨ pth ≠ [] ∨ usr.isSome
        case pos =>
          -- class C: `[scheme:]//[userinfo@]host[path]?query`
          have hpshape : pth = [] ∨ pth.head? = some '/' := by
            rcases Classical.em (hst ≠ [] ∨ usr ≠ none) with h0 | h0
            · exact habs h0
            · push_neg at h0
              apply habs' _ rfl rfl
              rcases hg1 with h1 | h1 | h1
              · exact h1
              · exact absurd h0.1 (by simpa using h1)
              · rw [h0.2] at h1; simp at h1
          have huilem : ∀ x, x ∈ userinfoPart usr → ((x ≠ '/') ∧ x ≠ '?' ∧ x ≠ '#') := by
            intro x hx
            cases husr' : usr with
            | none => rw [husr'] at hx; simp [userinfoPart] at hx
            | some ui =>
                rw [husr'] at hx
                simp only [userinfoPart, List.mem_append, List.mem_singleton] at hx
                obtain ⟨h1, h2, h3⟩ := validUserinfo_exclusions (huser ui husr')
                rcases hx with hx | rfl
                · exact ⟨fun he => h1 (he ▸ hx), fun he => h2 (he ▸ hx),
                    fun he => h3 (he ▸ hx)⟩
                · refine ⟨by decide, by decide, by decide⟩
          have hbody : ∀ x, x ∈ userinfoPart usr ++ hst ++ pth →
              (x = '#' → False) ∧ (x = '?' → False) := by
            intro x hx
            simp only [List.append_assoc, List.mem_append] at hx
            rcases hx with hx | hx | hx
            · exact ⟨fun he => (huilem x hx).2.2 he, fun he => (huilem x hx).2.1 he⟩
            · exact ⟨fun he => hhh (he ▸ hx), fun he => hhq (he ▸ hx)⟩
            · exact ⟨fun he => hph (he ▸ hx), fun he => hpq (he ▸ hx)⟩
          have hbA : '#' ∉ userinfoPart usr ++ hst ++ pth :=
            fun hm => (hbody '#' hm).1 rfl
          have hqA : '?' ∉ userinfoPart usr ++ hst ++ pth :=
            fun hm => (hbody '?' hm).2 rfl
          have hnq : '?' ∉ '/' :: '/' :: (userinfoPart usr ++ hst ++ pth) :=
            not_mem_cons_of (by decide) (not_mem_cons_of (by decide) hqA)
          have hAall : (userinfoPart usr ++ hst).all
              (fun x => decide (x ≠ '/')) = true := by
            rw [List.all_eq_true]
            intro x hx
            rcases List.mem_append.mp hx with hx | hx
            · simpa using (huilem x hx).1
            · simp only [decide_eq_true_eq]
              exact fun he => hhs (he ▸ hx)
          obtain ⟨htake, hdrop⟩ := split_noSlash_append hAall hpshape
          have hpa := parseAuthority_print usr hst huser hha hhp
          have hpre2 : ("//".data).isPrefixOf
              ('/' :: '/' :: (userinfoPart usr ++ hst ++ pth)) = true := by
            have : ("//".data) = ['/', '/'] := rfl
            rw [this, List.isPrefixOf_iff_prefix]
            exact ⟨_, rfl⟩
          have hconv : '/' :: '/' :: (userinfoPart usr ++ hst ++ pth ++
              (if fq = true ∨ rq ≠ [] then '?' :: rq else [])) =
              ('/' :: '/' :: (userinfoPart usr ++ hst ++ pth)) ++
                (if fq = true ∨ rq ≠ [] then '?' :: rq else []) := rfl
          cases sch with
          | nil =>
              -- subclass: no scheme, `//[userinfo@]host[path]?query`
              obtain ⟨z, w, hzw, hz⟩ : ∃ z w,
                  userinfoPart usr ++ hst ++ pth = z :: w ∧ z ≠ '/' := by
                cases usr with
                | some ui =>
                    cases ui with
                    | nil =>
                        exact ⟨'@', hst ++ pth, by simp [userinfoPart], by decide⟩
                    | cons y ys =>
                        refine ⟨y, (ys ++ ['@']) ++ hst ++ pth,
                          by simp [userinfoPart], ?_⟩
                        refine fun he => (huilem y ?_).1 he
                        simp [userinfoPart]
                | none =>
                    have hstne : hst ≠ [] := by
                      rcases hg1 with h1 | h1 | h1
                      · exact absurd rfl h1
                      · exact h1
                      · simp at h1
                    cases hst with
                    | nil => exact absurd rfl hstne
                    | cons a as =>
                        refine ⟨a, as ++ pth, by simp [userinfoPart],
                          fun he => hhs ?_⟩
                        rw [← he]
                        exact List.mem_cons_self _ _
              have hstr := urlString_authority [] usr hst pth fq rq hg1 hw hpshape
              rw [if_neg (fun h => h rfl), List.nil_append] at hstr
              rw [urlParseChars, hstr]
              have hhash : '#' ∉ '/' :: '/' :: (userinfoPart usr ++ hst ++ pth ++
                  (if fq = true ∨ rq ≠ [] then '?' :: rq else [])) := by
                rw [hconv]
                exact not_mem_append
                  (not_mem_cons_of (by decide) (not_mem_cons_of (by decide) hbA))
                  hqphash
              rw [splitFirst_eq_none hhash, parseNoFrag,
                getScheme_not_alpha (by decide) (by decide)]
              dsimp only
              rw [hconv, cutQuery_body _ fq rq hnq hforce]
              dsimp only
              rw [if_neg (by rintro ⟨-, h0⟩; exact h0 (by simp))]
              rw [if_neg (by rintro ⟨h0, -⟩; exact h0 rfl)]
              rw [if_pos ⟨Or.inr (by rw [hzw, not_prefix_three hz]; simp), hpre2⟩]
              have hdrop2 : ('/' :: '/' :: (userinfoPart usr ++ hst ++ pth)).drop 2 =
                  userinfoPart usr ++ hst ++ pth := rfl
              rw [hdrop2, htake, hdrop, hpa]
              rfl
          | cons c cs =>
              obtain ⟨c', cs', hcc, hc, hcs⟩ : ∃ c' cs', c :: cs = c' :: cs' ∧
                  isAlphaChar c' = true ∧ cs'.all isSchemeChar = true := by
                rcases hshape with h0 | ⟨c', cs', h0, hc, hcs⟩
                · simp at h0
                · exact ⟨c', cs', h0, hc, hcs⟩
              obtain ⟨rfl, rfl⟩ : c = c' ∧ cs = cs' := by
                rw [List.cons.injEq] at hcc
                exact hcc
              have hstr := urlString_authority (c :: cs) usr hst pth fq rq hg1 hw
                hpshape
              rw [if_pos (by simp),
                show ((c :: cs) ++ [':']) ++ ('/' :: '/' ::
                    (userinfoPart usr ++ hst ++ pth ++
                      (if fq = true ∨ rq ≠ [] then '?' :: rq else []))) =
                  c :: (cs ++ ':' :: ('/' :: '/' ::
                    (userinfoPart usr ++ hst ++ pth ++
                      (if fq = true ∨ rq ≠ [] then '?' :: rq else []))))
                  from by simp] at hstr
              rw [urlParseChars, hstr]
              have hhash : '#' ∉ c :: (cs ++ ':' :: ('/' :: '/' ::
                  (userinfoPart usr ++ hst ++ pth ++
                    (if fq = true ∨ rq ≠ [] then '?' :: rq else [])))) := by
                apply not_mem_cons_of
                  (fun he => hschh (by rw [he]; exact List.mem_cons_self c cs))
                apply not_mem_append (fun hx => hschh (List.mem_cons_of_mem _ hx))
                apply not_mem_cons_of (by decide)
                rw [hconv]
                exact not_mem_append
                  (not_mem_cons_of (by decide) (not_mem_cons_of (by decide) hbA))
                  hqphash
              rw [splitFirst_eq_none hhash, parseNoFrag, getScheme_valid hc hcs]
              dsimp only
              rw [hlower, hconv, cutQuery_body _ fq rq hnq hforce]
              dsimp only
              rw [if_neg (by rintro ⟨h0, -⟩; exact h0 rfl)]
              rw [if_neg (by rintro ⟨h0, -⟩; exact h0 rfl)]
              rw [if_pos ⟨Or.inl (by simp), hpre2⟩]
              have hdrop2 : ('/' :: '/' :: (userinfoPart usr ++ hst ++ pth)).drop 2 =
                  userinfoPart usr ++ hst ++ pth := rfl
              rw [hdrop2, htake, hdrop, hpa]
        case neg =>
          -- class D1: scheme only, `scheme:?query`
          push_neg at hw
          obtain ⟨hhst, hpth, husome⟩ := hw
          subst hhst; subst hpth
          have husr : usr = none := by
            cases usr
            · rfl
            · simp at husome
          subst husr
          have hsne : sch ≠ [] := by
            rcases hg1 with h1 | h1 | h1
            · exact h1
            · simp at h1
            · simp at h1
          obtain ⟨c, cs, rfl, hc, hcs⟩ : ∃ c cs, sch = c :: cs ∧
              isAlphaChar c = true ∧ cs.all isSchemeChar = true := by
            rcases hshape with rfl | ⟨c, cs, rfl, hc, hcs⟩
            · exact absurd rfl hsne
            · exact ⟨c, cs, rfl, hc, hcs⟩
          have hstr : urlString ⟨c :: cs, [], none, [], [], false, fq, rq, []⟩ =
              c :: (cs ++ ':' ::
                (if fq = true ∨ rq ≠ [] then '?' :: rq else [])) := by
            simp only [urlString, hqp, hfp, userinfoPart]
            split_ifs <;> simp_all [List.append_assoc]
          rw [urlParseChars, hstr]
          have hhash : '#' ∉ c :: (cs ++ ':' ::
              (if fq = true ∨ rq ≠ [] then '?' :: rq else [])) := by
            apply not_mem_cons_of
              (fun he => hschh (by rw [he]; exact List.mem_cons_self c cs))
            apply not_mem_append (fun hx => hschh (List.mem_cons_of_mem _ hx))
            exact not_mem_cons_of (by decide) hqphash
          rw [splitFirst_eq_none hhash, parseNoFrag, getScheme_valid hc hcs]
          dsimp only
          have hcq := cutQuery_body [] fq rq (by simp) hforce
          rw [List.nil_append] at hcq
          rw [hlower, hcq]
          dsimp only
          rw [if_pos ⟨by simp, by simp⟩]
      case neg =>
        -- class D2: no scheme, no authority: `path?query`
        push_neg at hg1
        obtain ⟨hsch, hhst, husome⟩ := hg1
        subst hsch; subst hhst
        have husr : usr = none := by
          cases usr
          · rfl
          · simp at husome
        subst husr
        obtain ⟨hcolon, hpre3⟩ := hles rfl rfl rfl
        have hcolon' : (pth.takeWhile (· ≠ '/')).contains ':' = false := by
          rw [Bool.eq_false_iff]
          exact hcolon
        have hstr : urlString ⟨[], [], none, [], pth, false, fq, rq, []⟩ =
            pth ++ (if fq = true ∨ rq ≠ [] then '?' :: rq else []) := by
          simp only [urlString, hqp, hfp, userinfoPart]
          split_ifs <;> simp_all [List.append_assoc]
        rw [urlParseChars, hstr]
        have hhash : '#' ∉ pth ++ (if fq = true ∨ rq ≠ [] then '?' :: rq else []) :=
          not_mem_append hph hqphash
        rw [splitFirst_eq_none hhash, parseNoFrag,
          getScheme_schemeless_body pth _ hcolon' hqpshape]
        dsimp only
        rw [cutQuery_body pth fq rq hpq hforce]
        dsimp only
        rw [if_neg (by rintro ⟨-, h0⟩; exact h0 rfl)]
        rw [if_neg (by rintro ⟨-, -, h0⟩; rw [h0] at hcolon'; cases hcolon')]
        rw [if_neg (by
          rintro ⟨h1 | h1, h2⟩
          · exact h1 rfl
          · exact h1 (hpre3 h2))]
        have homv : decide ((List.map Char.toLower ([] : List Char)) ≠ [] ∧
            pth.head? = some '/') = false := by simp
        rw [homv]
        rfl

lemma head_append_left {a : List Char} (b : List Char) (h : a ≠ []) :
    (a ++ b).head? = a.head? := by
  cases a with
  | nil => exact absurd rfl h
  | cons x xs => rfl

lemma eq_dropLast_append {l : List Char} {a : Char} (h : l.getLast? = some a) :
    l.dropLast ++ [a] = l := by
  have hne : l ≠ [] := by rintro rfl; simp at h
  rw [List.getLast?_eq_getLast l hne, Option.some.injEq] at h
  rw [← h]
  exact List.dropLast_append_getLast hne

lemma isPrefixOf_trans {a b c : List Char} (h1 : a.isPrefixOf b = true)
    (h2 : b.isPrefixOf c = true) : a.isPrefixOf c = true := by
  rw [List.isPrefixOf_iff_prefix] at h1 h2 ⊢
  exact h1.trans h2

lemma mem_takeWhile_append {p : Char → Bool} {x : Char} {a : List Char}
    (b : List Char) (h : x ∈ a.takeWhile p) : x ∈ (a ++ b).takeWhile p := by
  induction a with
  | nil => simp at h
  | cons y ys ih =>
      simp only [List.cons_append, List.takeWhile_cons] at h ⊢
      by_cases hp : p y = true
      · rw [if_pos hp] at h ⊢
        rcases List.mem_cons.mp h with rfl | h
        · exact List.mem_cons_self _ _
        · exact List.mem_cons_of_mem _ (ih h)
      · rw [if_neg hp] at h
        simp at h

/-- Changing only the query fields changes only the printed query tail. -/
lemma urlString_split_query (sch opq : List Char) (usr : Option (List Char))
    (hst pth : List Char) (omh fq : Bool) (rq : List Char) :
    urlString ⟨sch, opq, usr, hst, pth, omh, fq, rq, []⟩ =
      urlString ⟨sch, opq, usr, hst, pth, omh, false, [], []⟩ ++
        (if fq = true ∨ rq ≠ [] then '?' :: rq else []) := by
  have huin : userinfoPart (none : Option (List Char)) = [] := rfl
  by_cases hopqe : opq = []
  · subst hopqe
    simp only [urlString, queryPart, fragPart]
    rw [if_neg (show ¬(([] : List Char) ≠ []) from fun hc => hc rfl),
      if_neg (show ¬(([] : List Char) ≠ []) from fun hc => hc rfl)]
    simp [List.append_assoc]
  · simp only [urlString, queryPart, fragPart]
    rw [if_pos hopqe, if_pos hopqe]
    simp [List.append_assoc]

/-- `URL.String()` of an opaque record. -/
lemma urlString_opq (sch opq : List Char) (fq : Bool) (rq : List Char)
    (hsne : sch ≠ []) (hopqe : opq ≠ []) :
    urlString ⟨sch, opq, none, [], [], false, fq, rq, []⟩ =
      (sch ++ [':']) ++ (opq ++
        (if fq = true ∨ rq ≠ [] then '?' :: rq else [])) := by
  simp only [urlString, queryPart, fragPart]
  split_ifs <;> simp_all [List.append_assoc]

/-- `URL.String()` of an omit-host record. -/
lemma urlString_omit (sch pth : List Char) (fq : Bool) (rq : List Char)
    (hsne : sch ≠ []) :
    urlString ⟨sch, [], none, [], pth, true, fq, rq, []⟩ =
      (sch ++ [':']) ++ (pth ++
        (if fq = true ∨ rq ≠ [] then '?' :: rq else [])) := by
  have huin : userinfoPart (none : Option (List Char)) = [] := rfl
  simp only [urlString, queryPart, fragPart, huin]
  split_ifs <;> simp_all [List.append_assoc]

/-- `URL.String()` of a scheme-only record. -/
lemma urlString_schemeonly (sch : List Char) (fq : Bool) (rq : List Char)
    (hsne : sch ≠ []) :
    urlString ⟨sch, [], none, [], [], false, fq, rq, []⟩ =
      (sch ++ [':']) ++
        (if fq = true ∨ rq ≠ [] then '?' :: rq else []) := by
  have huin : userinfoPart (none : Option (List Char)) = [] := rfl
  simp only [urlString, queryPart, fragPart, huin]
  split_ifs <;> simp_all [List.append_assoc]

/-- `URL.String()` of a path-only record. -/
lemma urlString_pathonly (pth : List Char) (fq : Bool) (rq : List Char)
    (hcolon : (pth.takeWhile (· ≠ '/')).contains ':' = false) :
    urlString ⟨[], [], none, [], pth, false, fq, rq, []⟩ =
      pth ++ (if fq = true ∨ rq ≠ [] then '?' :: rq else []) := by
  simp only [urlString, queryPart, fragPart]
  split_ifs <;> simp_all [List.append_assoc]

/-- `WF` does not constrain the fragment. -/
lemma WF_set_fragment {u : GoURL} (h : WF u) (f : List Char) :
    WF { u with fragment := f } :=
  ⟨h.scheme_shape, h.scheme_lower, h.opq_shape, h.opq_hash, h.opq_query,
   h.user_valid, h.host_hash, h.host_query, h.host_slash, h.host_at,
   h.host_parse, h.path_hash, h.path_query, h.path_abs, h.path_abs',
   h.omit_shape, h.schemeless, h.schemeless_opq, h.query_hash, h.force⟩

/-- Any successful `url.Parse` yields a record whose fragment-free version is
well-formed. -/
lemma urlParseChars_WF {s : List Char} {u : GoURL}
    (h : urlParseChars s = some u) : WF { u with fragment := [] } := by
  rw [urlParseChars] at h
  cases hsf : splitFirst '#' s with
  | none =>
      rw [hsf] at h
      exact WF_set_fragment (parseNoFrag_WF (splitFirst_none_sound hsf) h) []
  | some p =>
      obtain ⟨before, frag⟩ := p
      rw [hsf] at h
      dsimp only at h
      cases hpn : parseNoFrag before with
      | none => rw [hpn] at h; simp at h
      | some pu =>
          rw [hpn] at h
          simp only [Option.map_some'] at h
          obtain rfl : ({ pu with fragment := frag } : GoURL) = u := by
            simpa using h
          exact WF_set_fragment
            (parseNoFrag_WF (splitFirst_sound hsf).2 hpn) []

set_option maxHeartbeats 1600000 in
/-- Removing one trailing slash from a well-formed printed URL yields the
print of another well-formed record, provided the shortened string does not
still end in a slash. -/
lemma exists_WF_dropLast (u : GoURL) (hW : WF u) (hfrag : u.fragment = [])
    (hlast : (urlString u).getLast? = some '/')
    (hlast2 : ((urlString u).dropLast).getLast? ≠ some '/') :
    ∃ w, WF w ∧ w.fragment = [] ∧ urlString w = (urlString u).dropLast := by
  obtain ⟨sch, opq, usr, hst, pth, omh, fq, rq, frg⟩ := u
  obtain ⟨hshape, hlower, hopq, hopqh, hopqq, huser, hhh, hhq, hhs, hha, hhp,
    hph, hpq, habs, habs', homit, hles, hlesopq, hqh, hforce⟩ := hW
  dsimp only at *
  subst hfrag
  by_cases hq : fq = true ∨ rq ≠ []
  case pos =>
    -- the print ends inside the `?query` tail: shrink the query
    have hsplit := urlString_split_query sch opq usr hst pth omh fq rq
    rw [hsplit, if_pos hq] at hlast hlast2 ⊢
    cases rq with
    | nil =>
        rw [List.getLast?_append_of_ne_nil _ (by simp)] at hlast
        simp at hlast
    | cons r rs =>
        have hrqne : r :: rs ≠ [] := by simp
        have hfq : fq = false := by
          cases fq
          · rfl
          · exact absurd (hforce rfl) hrqne
        subst hfq
        rw [List.getLast?_append_of_ne_nil _ (by simp)] at hlast
        have hlastq : (r :: rs).getLast? = some '/' := by
          rw [show ('?' :: r :: rs : List Char) = ['?'] ++ r :: rs from rfl,
            List.getLast?_append_of_ne_nil _ hrqne] at hlast
          exact hlast
        have hrqeq : (r :: rs).dropLast ++ ['/'] = r :: rs :=
          eq_dropLast_append hlastq
        by_cases hrq' : (r :: rs).dropLast = []
        · -- the query was exactly "/": keep the `?` via ForceQuery
          have hrqslash : r :: rs = ['/'] := by
            rw [← hrqeq, hrq', List.nil_append]
          refine ⟨⟨sch, opq, usr, hst, pth, omh, true, [], []⟩,
            ⟨hshape, hlower, hopq, hopqh, hopqq, huser, hhh, hhq, hhs, hha,
              hhp, hph, hpq, habs, habs', homit, hles, hlesopq, by simp,
              fun _ => rfl⟩, rfl, ?_⟩
          rw [urlString_split_query sch opq usr hst pth omh true [],
            if_pos (Or.inl rfl), hrqslash]
          rw [show ('?' :: ['/'] : List Char) = ['?'] ++ ['/'] from rfl,
            ← List.append_assoc, List.dropLast_concat]
        · -- the query loses its final character
          refine ⟨⟨sch, opq, usr, hst, pth, omh, false, (r :: rs).dropLast, []⟩,
            ⟨hshape, hlower, hopq, hopqh, hopqq, huser, hhh, hhq, hhs, hha,
              hhp, hph, hpq, habs, habs', homit, hles, hlesopq,
              fun hm => hqh ((List.dropLast_prefix _).subset hm),
              fun h => (nomatch h)⟩, rfl, ?_⟩
          rw [urlString_split_query sch opq usr hst pth omh false
              (r :: rs).dropLast,
            if_pos (Or.inr hrq')]
          rw [show ('?' :: r :: rs : List Char) = ['?'] ++ r :: rs from rfl]
          conv_rhs => rw [← hrqeq]
          rw [← List.append_assoc, ← List.append_assoc, List.dropLast_concat]
          simp [List.append_assoc]
  case neg =>
    have hfq : fq = false := by
      cases fq
      · rfl
      · exact absurd (Or.inl rfl) hq
    have hrq0 : rq = [] := by
      by_contra hne
      exact hq (Or.inr hne)
    subst hfq; subst hrq0
    by_cases hopqe : opq = []
    case neg =>
      -- opaque class: the '/' ends the opaque part
      obtain ⟨hsne, hophead, hhst, husr, hpth, homh⟩ := hopq hopqe
      subst hhst; subst husr; subst hpth; subst homh
      have hstr := urlString_opq sch opq false [] hsne hopqe
      rw [if_neg (by simp), List.append_nil] at hstr
      rw [hstr] at hlast hlast2 ⊢
      rw [List.getLast?_append_of_ne_nil _ hopqe] at hlast
      have hopqeq := eq_dropLast_append hlast
      have hopq' : opq.dropLast ≠ [] := by
        intro h0
        rw [h0, List.nil_append] at hopqeq
        exact hophead (by rw [← hopqeq]; rfl)
      have hh0 : opq.dropLast.head? = opq.head? := by
        conv_rhs => rw [← hopqeq]
        rw [head_append_left _ hopq']
      refine ⟨⟨sch, opq.dropLast, none, [], [], false, false, [], []⟩,
        ⟨hshape, hlower,
          fun _ => ⟨hsne, by rw [hh0]; exact hophead, rfl, rfl, rfl, rfl⟩,
          fun hm => hopqh ((List.dropLast_prefix _).subset hm),
          fun hm => hopqq ((List.dropLast_prefix _).subset hm),
          huser, hhh, hhq, hhs, hha, hhp, hph, hpq, habs,
          fun _ h _ => absurd h hopq',
          fun h => (nomatch h),
          hles, fun h => absurd h hsne, hqh, hforce⟩, rfl, ?_⟩
      rw [urlString_opq sch opq.dropLast false [] hsne hopq',
        if_neg (by simp), List.append_nil]
      conv_rhs => rw [← hopqeq]
      rw [← List.append_assoc, List.dropLast_concat]
    case pos =>
      subst hopqe
      by_cases homite : omh = true
      case pos =>
        -- omit-host class: the '/' ends the path
        obtain ⟨hsne, hhst, husr, hphead, hnopre, -⟩ := homit homite
        subst hhst; subst husr; subst homite
        have hpne : pth ≠ [] := by
          intro h0
          rw [h0] at hphead
          simp at hphead
        have hstr := urlString_omit sch pth false [] hsne
        rw [if_neg (by simp), List.append_nil] at hstr
        rw [hstr] at hlast hlast2 ⊢
        rw [List.getLast?_append_of_ne_nil _ hpne] at hlast
        have hpeq := eq_dropLast_append hlast
        by_cases hp' : pth.dropLast = []
        · -- path was exactly "/": drop to a scheme-only record
          refine ⟨⟨sch, [], none, [], [], false, false, [], []⟩,
            ⟨hshape, hlower, fun h => absurd rfl h, hopqh, hopqq, huser,
              hhh, hhq, hhs, hha, hhp, by simp, by simp,
              fun _ => Or.inl rfl, fun _ _ _ => Or.inl rfl,
              fun h => (nomatch h),
              fun h => absurd h hsne, fun _ => rfl, hqh, hforce⟩, rfl, ?_⟩
          rw [urlString_schemeonly sch false [] hsne, if_neg (by simp),
            List.append_nil]
          conv_rhs => rw [← hpeq]
          rw [hp', List.nil_append, List.dropLast_concat]
        · -- shrink the path
          have hh0 : pth.dropLast.head? = pth.head? := by
            conv_rhs => rw [← hpeq]
            rw [head_append_left _ hp']
          have hnopre' : ¬ ("//".data.isPrefixOf pth.dropLast = true) := by
            intro hp2
            exact hnopre (isPrefixOf_trans hp2
              (List.isPrefixOf_iff_prefix.mpr (List.dropLast_prefix pth)))
          refine ⟨⟨sch, [], none, [], pth.dropLast, true, false, [], []⟩,
            ⟨hshape, hlower, fun h => absurd rfl h, hopqh, hopqq, huser,
              hhh, hhq, hhs, hha, hhp,
              fun hm => hph ((List.dropLast_prefix _).subset hm),
              fun hm => hpq ((List.dropLast_prefix _).subset hm),
              fun _ => Or.inr (hh0.trans hphead),
              fun _ _ h => (nomatch h),
              fun _ => ⟨hsne, rfl, rfl, hh0.trans hphead, hnopre', rfl⟩,
              fun h => absurd h hsne, fun _ => rfl, hqh, hforce⟩, rfl, ?_⟩
          rw [urlString_omit sch pth.dropLast false [] hsne, if_neg (by simp),
            List.append_nil]
          conv_rhs => rw [← hpeq]
          rw [← List.append_assoc, List.dropLast_concat]
      case neg =>
        have homh0 : omh = false := by
          cases omh
          · rfl
          · exact absurd rfl homite
        subst homh0
        by_cases hg1 : sch ≠ [] ∨ hst ≠ [] ∨ usr.isSome
        case pos =>
          by_cases hw : hst ≠ [] ∨ pth ≠ [] ∨ usr.isSome
          case pos =>
            -- authority class: the '/' ends the path
            have hpshape : pth = [] ∨ pth.head? = some '/' := by
              rcases Classical.em (hst ≠ [] ∨ usr ≠ none) with h0 | h0
              · exact habs h0
              · push_neg at h0
                apply habs' _ rfl rfl
                rcases hg1 with h1 | h1 | h1
                · exact h1
                · exact absurd h0.1 (by simpa using h1)
                · rw [h0.2] at h1; simp at h1
            have huilem : ∀ x, x ∈ userinfoPart usr → x ≠ '/' := by
              intro x hx
              cases husr' : usr with
              | none => rw [husr'] at hx; simp [userinfoPart] at hx
              | some ui =>
                  rw [husr'] at hx
                  simp only [userinfoPart, List.mem_append,
                    List.mem_singleton] at hx
                  obtain ⟨h1, -, -⟩ := validUserinfo_exclusions (huser ui husr')
                  rcases hx with hx | rfl
                  · exact fun he => h1 (he ▸ hx)
                  · decide
            have hstr := urlString_authority sch usr hst pth false [] hg1 hw
              hpshape
            rw [if_neg (show ¬((false : Bool) = true ∨ ([] : List Char) ≠ [])
                by simp),
              List.append_nil] at hstr
            rw [hstr] at hlast hlast2 ⊢
            have hAlast : ∀ x, (userinfoPart usr ++ hst).getLast? = some x →
                x ≠ '/' := by
              intro x hx
              have hxmem : x ∈ userinfoPart usr ++ hst := by
                have h0 := eq_dropLast_append hx
                rw [← h0]
                simp
              rcases List.mem_append.mp hxmem with hm | hm
              · exact huilem x hm
              · exact fun he => hhs (he ▸ hm)
            have hpne : pth ≠ [] := by
              intro hpe
              have hAne : userinfoPart usr ++ hst ≠ [] := by
                intro hA0
                rw [List.append_eq_nil] at hA0
                rcases hw with h1 | h1 | h1
                · exact h1 hA0.2
                · exact h1 hpe
                · cases husr' : usr with
                  | none => rw [husr'] at h1; simp at h1
                  | some ui => rw [husr'] at hA0; simp [userinfoPart] at hA0
              have h := hlast
              rw [hpe, List.append_nil] at h
              rw [List.getLast?_append_of_ne_nil _ (by simp)] at h
              rw [show ('/' :: '/' :: (userinfoPart usr ++ hst) : List Char) =
                  ['/', '/'] ++ (userinfoPart usr ++ hst) from rfl,
                List.getLast?_append_of_ne_nil _ hAne] at h
              exact hAlast '/' h rfl
            have hlastp : pth.getLast? = some '/' := by
              have h := hlast
              rw [List.getLast?_append_of_ne_nil _ (by simp),
                show ('/' :: '/' :: (userinfoPart usr ++ hst ++ pth) :
                    List Char) =
                  ['/', '/'] ++ (userinfoPart usr ++ hst ++ pth) from rfl,
                List.getLast?_append_of_ne_nil _
                  (fun h0 => hpne (List.append_eq_nil.mp h0).2),
                List.getLast?_append_of_ne_nil _ hpne] at h
              exact h
            have hph0 : pth.head? = some '/' := by
              rcases hpshape with h0 | h0
              · exact absurd h0 hpne
              · exact h0
            have hpeq := eq_dropLast_append hlastp
            by_cases hp' : pth.dropLast = []
            · -- path was exactly "/": drop the path entirely
              have hpslash : pth = ['/'] := by
                rw [← hpeq, hp', List.nil_append]
              have hAne : userinfoPart usr ++ hst ≠ [] := by
                intro hA0
                apply hlast2
                rw [hpslash, hA0, List.nil_append]
                rw [show ('/' :: '/' :: ['/'] : List Char) =
                    ['/', '/'] ++ ['/'] from rfl,
                  ← List.append_assoc, List.dropLast_concat,
                  List.getLast?_append_of_ne_nil _ (by simp)]
                rfl
              have hw' : hst ≠ [] ∨ ([] : List Char) ≠ [] ∨
                  usr.isSome = true := by
                cases usr with
                | some ui => exact Or.inr (Or.inr rfl)
                | none =>
                    refine Or.inl (fun h0 => hAne ?_)
                    rw [h0]
                    rfl
              refine ⟨⟨sch, [], usr, hst, [], false, false, [], []⟩,
                ⟨hshape, hlower, fun h => absurd rfl h, hopqh, hopqq, huser,
                  hhh, hhq, hhs, hha, hhp, by simp, by simp,
                  fun _ => Or.inl rfl, fun _ _ _ => Or.inl rfl,
                  fun h => (nomatch h),
                  fun _ _ _ => ⟨by simp, fun hpre => (nomatch hpre)⟩,
                  fun _ => rfl, hqh, hforce⟩, rfl, ?_⟩
              rw [urlString_authority sch usr hst [] false [] hg1 hw'
                  (Or.inl rfl),
                if_neg (show ¬((false : Bool) = true ∨ ([] : List Char) ≠ [])
                  by simp)]
              rw [hpslash]
              rw [show ('/' :: '/' :: (userinfoPart usr ++ hst ++ ['/']) :
                    List Char) =
                  ('/' :: '/' :: (userinfoPart usr ++ hst)) ++ ['/'] from by
                  simp [List.append_assoc],
                ← List.append_assoc, List.dropLast_concat]
              simp [List.append_assoc]
            · -- shrink the path
              have hh0 : pth.dropLast.head? = pth.head? := by
                conv_rhs => rw [← hpeq]
                rw [head_append_left _ hp']
              refine ⟨⟨sch, [], usr, hst, pth.dropLast, false, false, [], []⟩,
                ⟨hshape, hlower, fun h => absurd rfl h, hopqh, hopqq, huser,
                  hhh, hhq, hhs, hha, hhp,
                  fun hm => hph ((List.dropLast_prefix _).subset hm),
                  fun hm => hpq ((List.dropLast_prefix _).subset hm),
                  fun _ => Or.inr (hh0.trans hph0),
                  fun _ _ _ => Or.inr (hh0.trans hph0),
                  fun h => (nomatch h),
                  fun h1 h2 h3 => absurd hg1 (by
                    push_neg
                    have h3' : usr = none := h3
                    exact ⟨h1, h2, by rw [h3']; simp⟩),
                  fun _ => rfl, hqh, hforce⟩, rfl, ?_⟩
              rw [urlString_authority sch usr hst pth.dropLast false [] hg1
                  (Or.inr (Or.inl hp')) (Or.inr (hh0.trans hph0)),
                if_neg (show ¬((false : Bool) = true ∨ ([] : List Char) ≠ [])
                  by simp),
                List.append_nil]
              conv_rhs => rw [← hpeq]
              rw [show ('/' :: '/' :: (userinfoPart usr ++ hst ++
                    (pth.dropLast ++ ['/'])) : List Char) =
                  ('/' :: '/' :: (userinfoPart usr ++ hst ++ pth.dropLast)) ++
                    ['/'] from by simp [List.append_assoc],
                ← List.append_assoc, List.dropLast_concat]
          case neg =>
            -- scheme-only class: its print ends in ':', impossible
            push_neg at hw
            obtain ⟨hhst, hpth, husome⟩ := hw
            subst hhst; subst hpth
            have husr : usr = none := by
              cases usr
              · rfl
              · simp at husome
            subst husr
            have hsne : sch ≠ [] := by
              rcases hg1 with h1 | h1 | h1
              · exact h1
              · simp at h1
              · simp at h1
            have hstr := urlString_schemeonly sch false [] hsne
            rw [if_neg (by simp), List.append_nil] at hstr
            rw [hstr] at hlast
            rw [List.getLast?_append_of_ne_nil _ (by simp)] at hlast
            simp at hlast
        case neg =>
          -- path-only class
          push_neg at hg1
          obtain ⟨hsch, hhst, husome⟩ := hg1
          subst hsch; subst hhst
          have husr : usr = none := by
            cases usr
            · rfl
            · simp at husome
          subst husr
          obtain ⟨hcolon, hpre3⟩ := hles rfl rfl rfl
          have hcolon' : (pth.takeWhile (· ≠ '/')).contains ':' = false := by
            rw [Bool.eq_false_iff]
            exact hcolon
          have hstr := urlString_pathonly pth false [] hcolon'
          rw [if_neg (by simp), List.append_nil] at hstr
          rw [hstr] at hlast hlast2 ⊢
          have hpne : pth ≠ [] := by
            intro h0
            rw [h0] at hlast
            simp at hlast
          have hpeq := eq_dropLast_append hlast
          have hcd : (pth.dropLast.takeWhile (· ≠ '/')).contains ':' =
              false := by
            rw [Bool.eq_false_iff]
            intro hc
            apply hcolon
            have h1 : ':' ∈ pth.dropLast.takeWhile
                (fun x => decide (x ≠ '/')) := by
              simpa using hc
            have h2 : ':' ∈ pth.takeWhile (fun x => decide (x ≠ '/')) := by
              rw [← hpeq]
              exact mem_takeWhile_append _ h1
            simpa using h2
          have hpred : "//".data.isPrefixOf pth.dropLast = true →
              "///".data.isPrefixOf pth.dropLast = true := by
            intro hp2
            have hp2' : "//".data.isPrefixOf pth = true :=
              isPrefixOf_trans hp2
                (List.isPrefixOf_iff_prefix.mpr (List.dropLast_prefix pth))
            have hp3 := hpre3 hp2'
            rw [List.isPrefixOf_iff_prefix] at hp3
            obtain ⟨t, ht⟩ := hp3
            by_cases hte : t = []
            · exfalso
              apply hlast2
              rw [← ht, hte, List.append_nil]
              rfl
            · have ht' : pth.dropLast = "///".data ++ t.dropLast := by
                rw [← ht, List.dropLast_append_of_ne_nil _ hte]
              rw [ht', List.isPrefixOf_iff_prefix]
              exact ⟨t.dropLast, rfl⟩
          refine ⟨⟨[], [], none, [], pth.dropLast, false, false, [], []⟩,
            ⟨Or.inl rfl, rfl, fun h => absurd rfl h, hopqh, hopqq, huser,
              hhh, hhq, hhs, hha, hhp,
              fun hm => hph ((List.dropLast_prefix _).subset hm),
              fun hm => hpq ((List.dropLast_prefix _).subset hm),
              fun h => absurd h (by simp),
              fun h _ _ => absurd rfl h,
              fun h => (nomatch h),
              fun _ _ _ => ⟨by rw [hcd]; simp, hpred⟩,
              fun _ => rfl, hqh, hforce⟩, rfl, ?_⟩
          rw [urlString_pathonly pth.dropLast false [] hcd, if_neg (by simp),
            List.append_nil]

/-- C7 (amended): `NormalizeURL` is idempotent on every input whose
normalized form is already whitespace-trimmed and does not end in a slash:
for such inputs a second normalization returns the first result unchanged. -/
theorem normalize_idempotent_on_stable (rawURL : String)
    (h1 : trimChars (NormalizeURL rawURL).data = (NormalizeURL rawURL).data)
    (h2 : ((NormalizeURL rawURL).data).getLast? ≠ some '/') :
    NormalizeURL (NormalizeURL rawURL) = NormalizeURL rawURL := by
  cases hparse : urlParseChars (trimChars rawURL.data) with
  | none =>
      have hs : NormalizeURL rawURL = String.mk (trimChars rawURL.data) := by
        rw [NormalizeURL]
        dsimp only
        rw [hparse]
      rw [hs] at h1 ⊢
      have hTT : trimChars (trimChars rawURL.data) = trimChars rawURL.data := h1
      rw [NormalizeURL]
      dsimp only
      rw [hTT, hparse]
  | some u =>
      have hWF : WF { u with fragment := [] } := urlParseChars_WF hparse
      have hround : urlParseChars (urlString { u with fragment := [] }) =
          some { u with fragment := [] } :=
        urlParse_urlString _ hWF rfl
      have hs : NormalizeURL rawURL =
          (if urlString { u with fragment := [] } ≠ [] ∧
              (urlString { u with fragment := [] }).getLast? = some '/' ∧
              u.path ≠ "/".data then
            String.mk (urlString { u with fragment := [] }).dropLast
          else String.mk (urlString { u with fragment := [] })) := by
        rw [NormalizeURL]
        dsimp only
        rw [hparse]
      by_cases hdrop : urlString { u with fragment := [] } ≠ [] ∧
          (urlString { u with fragment := [] }).getLast? = some '/' ∧
          u.path ≠ "/".data
      · rw [if_pos hdrop] at hs
        rw [hs] at h1 h2 ⊢
        have h2' : ((urlString { u with fragment := [] }).dropLast).getLast? ≠
            some '/' := h2
        have hTT : trimChars (urlString { u with fragment := [] }).dropLast =
            (urlString { u with fragment := [] }).dropLast := h1
        obtain ⟨w, hWFw, hfw, hws⟩ :=
          exists_WF_dropLast _ hWF rfl hdrop.2.1 h2'
        have hroundw : urlParseChars (urlString w) = some w :=
          urlParse_urlString w hWFw hfw
        have hcw : ({ w with fragment := [] } : GoURL) = w := by
          obtain ⟨w1, w2, w3, w4, w5, w6, w7, w8, w9⟩ := w
          dsimp only at hfw
          subst hfw
          rfl
        rw [NormalizeURL]
        dsimp only
        rw [hTT, ← hws, hroundw]
        dsimp only
        rw [hcw, hws]
        rw [if_neg (by rintro ⟨-, hC, -⟩; exact h2' hC)]
      · rw [if_neg hdrop] at hs
        rw [hs] at h1 ⊢
        have hTT : trimChars (urlString { u with fragment := [] }) =
            urlString { u with fragment := [] } := h1
        rw [NormalizeURL]
        dsimp only
        rw [hTT, hround]
        dsimp only
        rw [if_neg hdrop]

/-- Witness for the amended C7 theorem at a concrete stable input. -/
theorem normalize_idempotent_on_stable_witness :
    (trimChars (NormalizeURL "https://x.com/a").data =
        (NormalizeURL "https://x.com/a").data ∧
      ((NormalizeURL "https://x.com/a").data).getLast? ≠ some '/') ∧
    NormalizeURL (NormalizeURL "https://x.com/a") =
      NormalizeURL "https://x.com/a" :=
  ⟨⟨by decide, by decide⟩,
    normalize_idempotent_on_stable "https://x.com/a" (by decide) (by decide)⟩

end YtDlApi
